import Mathlib

/-!
Verification development for the GWAS pipeline step-orchestration engine
(`workflow/gwas_pipeline`): step registry and selection resolution
(`pipeline.py`), the durable progress recorder (`progress.py`), the
configuration fallback resolver (`steps.py` / `config.py`), and the
top-level `GWASPipeline.run` driver.  Python dictionaries are modelled as
association lists, timestamps as integers (seconds), fallible operations
as `Except`, and the filesystem effects of the atomic-replace protocol as
explicit state traces.
-/

namespace GwasPipeline

/-- `STEP_SEQUENCE` from `pipeline.py`: `(primary, legacy-alias)` pairs in
canonical order. -/
def STEP_SEQUENCE : List (String × String) := [
  ("step01_filter_variants", "filter_variants"),
  ("step02_filter_mapped_snps", "filter_mapped_snps"),
  ("step03_filter_individuals", "filter_individuals"),
  ("step04_transpose_matrix", "transpose_genotypes"),
  ("step05_calculate_ibs", "ibs_similarity"),
  ("step06_convert_to_dissimilarity", "ibs_dissimilarity"),
  ("step07_extract_labels", "extract_labels"),
  ("step08_create_plink_map", "create_plink_map"),
  ("step09_csv_to_tped", "transpose_to_tped"),
  ("step10_ld_decay_plot", "ld_decay_plot"),
  ("step11_plink_pruning", "plink_pruning"),
  ("step12_extract_pruned_subset", "extract_pruned_subset"),
  ("step13_pcoa", "pcoa"),
  ("step14_convert_to_structure", "convert_to_structure"),
  ("step15_fix_pruned_ped", "fix_pruned_ped"),
  ("step16_trait_split", "trait_split"),
  ("step17_trait_adjust", "trait_adjust")]

/-- `STEP_ORDER = tuple(primary for primary, _ in STEP_SEQUENCE)`. -/
def STEP_ORDER : List String := STEP_SEQUENCE.map Prod.fst

/-- The `STEP_ALIASES` dict: `{alias: primary}` updated with
`{primary: primary}`.  Modelled as an association list; all keys are
distinct in the source data so lookup order is immaterial. -/
def STEP_ALIASES : List (String × String) :=
  STEP_SEQUENCE.map (fun pr => (pr.2, pr.1)) ++ STEP_SEQUENCE.map (fun pr => (pr.1, pr.1))

/-- Keys of the `STEP_FUNCTIONS` registry in `steps.py` (primary names,
pruned variants, and the legacy-name back-compat update).  The handler
bodies themselves are out of scope; only registry membership matters to
the orchestrator. -/
def STEP_FUNCTION_KEYS : List String := [
  "step01_filter_variants", "step02_filter_mapped_snps", "step03_filter_individuals",
  "step04_transpose_matrix", "step05_calculate_ibs", "step06_convert_to_dissimilarity",
  "step07_extract_labels", "step08_create_plink_map", "step09_csv_to_tped",
  "step10_ld_decay_plot", "step11_plink_pruning", "step12_extract_pruned_subset",
  "step13_pcoa", "step14_convert_to_structure", "step15_fix_pruned_ped",
  "step16_trait_split", "step17_trait_adjust",
  "step04_transpose_pruned", "step05_calculate_ibs_pruned",
  "step06_convert_to_dissimilarity_pruned", "step07_extract_labels_pruned",
  "filter_variants", "filter_mapped_snps", "filter_individuals",
  "transpose_genotypes", "ibs_similarity", "ibs_dissimilarity",
  "extract_labels", "create_plink_map", "transpose_to_tped",
  "plink_pruning", "extract_pruned_subset", "convert_to_structure",
  "pcoa", "fix_pruned_ped", "trait_split", "trait_adjust", "ld_decay_plot"]

/-- Python `str.split(",")` on the underlying character list:
`"a,,b" ↦ ["a","","b"]`, `"" ↦ [""]`. -/
def splitCommaChars : List Char → List (List Char)
  | [] => [[]]
  | c :: cs =>
    let r := splitCommaChars cs
    if c = ',' then [] :: r
    else
      match r with
      | [] => [[c]]
      | grp :: rest => (c :: grp) :: rest

def splitOnComma (s : String) : List String :=
  (splitCommaChars s.toList).map (fun cs => String.mk cs)

def isSpaceChar (c : Char) : Bool :=
  c = ' ' || c = '\t' || c = '\n' || c = '\r'

/-- Python `str.strip()`: drop leading and trailing whitespace. -/
def stripStr (s : String) : String :=
  String.mk (((s.toList.dropWhile isSpaceChar).reverse.dropWhile isSpaceChar).reverse)

/-- Token flattening in `GWASPipeline.run`: each selection token is split
on commas, whitespace-stripped, and empty parts are dropped. -/
def splitSelection (tokens : List String) : List String :=
  tokens.flatMap (fun token => ((splitOnComma token).map stripStr).filter (fun p => p ≠ ""))

/-- `STEP_ALIASES.get(step, step)`. -/
def lookupAlias (step : String) : String :=
  match STEP_ALIASES.find? (fun pr => pr.1 == step) with
  | some pr => pr.2
  | none => step

/-- `resolved in STEP_FUNCTIONS`. -/
def isRegistered (step : String) : Bool := STEP_FUNCTION_KEYS.contains step

/-- The normalisation loop of `GWASPipeline.run`: returns
`(normalised, unknown)` where `normalised` collects the alias-resolved
identifiers of registered steps and `unknown` collects (in order) the
original tokens that resolve to no registered handler. -/
def normaliseSelection (selectedList : List String) : List String × List String :=
  selectedList.foldl
    (fun acc step =>
      let resolved := lookupAlias step
      if isRegistered resolved then (acc.1 ++ [resolved], acc.2)
      else (acc.1, acc.2 ++ [step]))
    ([], [])

/-- The duplicate-collapsing loop of `GWASPipeline.run`: keep the first
occurrence of each resolved identifier (`seen` set modelled by the
accumulated list, which holds exactly the same elements). -/
def dedupFirst (l : List String) : List String :=
  l.foldl (fun acc step => if acc.contains step then acc else acc ++ [step]) []

/-- Specification-side description of first-occurrence deduplication:
keep the head, drop its later duplicates, recurse. -/
def firstOccur : List String → List String
  | [] => []
  | x :: xs => x :: firstOccur (xs.filter (fun y => y ≠ x))
termination_by l => l.length
decreasing_by
  simp only [List.length_cons]
  exact Nat.lt_succ_of_le (List.length_filter_le _ _)

/-- `", ".join(l)`. -/
def joinComma : List String → String
  | [] => ""
  | [t] => t
  | t :: rest => t ++ (", " ++ joinComma rest)

/-- The `ConfigError` message for unknown selection tokens. -/
def unknownMessage (unknown : List String) : String :=
  "Unknown step(s): " ++ joinComma unknown

/-- Selection resolution of `GWASPipeline.run` (lines 60-90): `.error` is
the `ConfigError` raised for unknown tokens, `.ok none` is the early
return for an empty resolved order, `.ok (some order)` proceeds to a
session. -/
def resolveSelection (selectedSteps : List String) : Except String (Option (List String)) :=
  let selectedList := splitSelection selectedSteps
  let norm := normaliseSelection selectedList
  if norm.2 ≠ [] then .error (unknownMessage norm.2)
  else
    let runOrder := dedupFirst norm.1
    if runOrder = [] then .ok none else .ok (some runOrder)

section DedupLemmas

theorem firstOccur_mem : ∀ (l : List String) (a : String), a ∈ firstOccur l ↔ a ∈ l := by
  intro l
  induction l using firstOccur.induct with
  | case1 => intro a; simp [firstOccur]
  | case2 x xs ih =>
    intro a
    rw [firstOccur]
    simp only [List.mem_cons]
    constructor
    · rintro (rfl | h)
      · exact Or.inl rfl
      · rcases (ih a).mp h with h'
        exact Or.inr (List.mem_of_mem_filter h')
    · rintro (rfl | h)
      · exact Or.inl rfl
      · by_cases hax : a = x
        · exact Or.inl hax
        · refine Or.inr ((ih a).mpr ?_)
          refine List.mem_filter.mpr ⟨h, ?_⟩
          simp [hax]

theorem firstOccur_nodup : ∀ (l : List String), (firstOccur l).Nodup := by
  intro l
  induction l using firstOccur.induct with
  | case1 => simp [firstOccur]
  | case2 x xs ih =>
    rw [firstOccur]
    refine List.nodup_cons.mpr ⟨?_, ih⟩
    intro hmem
    have hx := (firstOccur_mem _ x).mp hmem
    have := List.of_mem_filter hx
    simp at this

theorem dedupFirst_go (l : List String) :
    ∀ acc : List String,
      l.foldl (fun acc step => if acc.contains step then acc else acc ++ [step]) acc
        = acc ++ firstOccur (l.filter (fun y => !acc.contains y)) := by
  induction l with
  | nil => intro acc; simp [firstOccur]
  | cons x xs ih =>
    intro acc
    by_cases hx : acc.contains x
    · simp only [List.foldl_cons, hx, if_pos]
      rw [ih acc]
      congr 2
      simp only [List.filter_cons, hx]
      rfl
    · simp only [List.foldl_cons, hx, if_neg, Bool.false_eq_true, not_false_iff]
      rw [ih (acc ++ [x])]
      have hxm : x ∉ acc := by simpa using hx
      have hx' : (!acc.contains x) = true := by simp [hxm]
      have hfx : (x :: xs).filter (fun y => !acc.contains y)
          = x :: xs.filter (fun y => !acc.contains y) := by
        rw [List.filter_cons, if_pos hx']
      rw [hfx, firstOccur]
      simp only [List.append_assoc, List.singleton_append]
      congr 2
      rw [List.filter_filter]
      apply congrArg
      apply List.filter_congr
      intro a _
      by_cases hax : a = x
      · subst hax; simp
      · simp [hax]

theorem dedupFirst_eq_firstOccur (l : List String) : dedupFirst l = firstOccur l := by
  have h := dedupFirst_go l []
  simp only [List.contains_nil, Bool.not_false, List.filter_true, List.nil_append] at h
  simpa [dedupFirst] using h

theorem dedupFirst_nodup (l : List String) : (dedupFirst l).Nodup := by
  rw [dedupFirst_eq_firstOccur]; exact firstOccur_nodup l

end DedupLemmas

/-- A YAML value as seen by `PipelineConfig`: a string scalar, a mapping,
or any other value (numbers, sequences, null) whose structure the
orchestrator never inspects. -/
inductive CVal where
  | str (s : String)
  | dict (entries : List (String × CVal))
  | other

/-- Plain dictionary lookup (`d.get(k)`), first binding wins. -/
def dictGet (entries : List (String × CVal)) (k : String) : Option CVal :=
  (entries.find? (fun pr => pr.1 == k)).map (fun pr => pr.2)

/-- `isinstance(v, dict)` on an optional lookup result. -/
def isDictOpt : Option CVal → Bool
  | some (.dict _) => true
  | _ => false

/-- `PipelineConfig.get(*keys)` without a default: walk the dotted key
path, returning `none` when a segment is absent or the node is not a
mapping. -/
def configGet : CVal → List String → Option CVal
  | node, [] => some node
  | .dict es, k :: ks =>
    match dictGet es k with
    | some v => configGet v ks
    | none => none
  | _, _ :: _ => none

/-- Python truthiness for the YAML values the resolver tests with
`if raw:`. -/
def cvTruthy : CVal → Bool
  | .str s => s != ""
  | .dict es => !es.isEmpty
  | .other => true

/-- One iteration of the `configured_steps` loop. -/
def configuredStepsFold (entries : List (String × CVal)) (configured : List String)
    (pr : String × String) : List String :=
  let cfg0 := dictGet entries pr.1
  let cfg := if !isDictOpt cfg0 && pr.2 ≠ "" then dictGet entries pr.2 else cfg0
  if isDictOpt cfg then configured ++ [pr.1] else configured

/-- `GWASPipeline.configured_steps` applied to the value of the top-level
`steps` key (the caller passes `config.get("steps", default={})`):
iterate `STEP_SEQUENCE` in order, fall back to the legacy key when the
canonical key does not hold a mapping, and keep the primary name when a
mapping was found. -/
def configuredSteps (stepsCfg : CVal) : Except String (List String) :=
  match stepsCfg with
  | .dict entries => .ok (STEP_SEQUENCE.foldl (configuredStepsFold entries) [])
  | _ => .error "steps must be a mapping in the YAML configuration"

/-- `PipelineConfig.resolve_path` (directory creation side effect and
`Path.resolve()` normalisation elided): `None`/empty stay unresolved,
absolute paths pass through, relative paths are anchored at the project
root. -/
def isAbsolutePath (s : String) : Bool :=
  match s.toList with
  | c :: _ => c = '/'
  | [] => false

def resolvePath (root : String) : Option String → Option String
  | none => none
  | some v =>
    if v = "" then none
    else if isAbsolutePath v then some v
    else some (root ++ "/" ++ v)

/-- `PipelineConfig.path(*keys)` with default `None`: hierarchical get
composed with `resolve_path`.  A non-string, non-null value at the key is
a `TypeError` in the source (`Path(value)`), modelled as `.error`. -/
def configPath (cfg : CVal) (root : String) (keys : List String) :
    Except String (Option String) :=
  match configGet cfg keys with
  | none => .ok (resolvePath root none)
  | some (.str s) => .ok (resolvePath root (some s))
  | some _ => .error "path value is not a string"

/-- `_resolve_input_path` from `steps.py`: try the step's own `key`
(truthy test), then the single fallback key path (`if fallback_keys:`,
empty list falsy), else fail naming the original key. -/
def resolveInputPath (cfg : CVal) (root : String) (stepCfg : List (String × CVal))
    (key : String) (fallbackKeys : List String) : Except String String :=
  let fallbackBranch : Except String String :=
    if fallbackKeys ≠ [] then
      match configPath cfg root fallbackKeys with
      | .ok (some p) => .ok p
      | .ok none =>
        .error ("Missing input path for key '" ++ key ++ "' and no fallback provided")
      | .error e => .error e
    else
      .error ("Missing input path for key '" ++ key ++ "' and no fallback provided")
  match dictGet stepCfg key with
  | some raw =>
    if cvTruthy raw then
      match raw with
      | .str s =>
        match resolvePath root (some s) with
        | some p => .ok p
        | none => .error ("Input path for " ++ key ++ " is not set")
      | _ => .error "path value is not a string"
    else fallbackBranch
  | none => fallbackBranch

/-! ## ProgressLog (`progress.py`)

Timestamps are modelled as integer seconds, so the two-decimal duration
rounding of the source degenerates to an exact difference.  The entry
dictionaries appended to `data["steps"]` are modelled as a structure with
optional fields. -/

/-- One entry of `data["steps"]`. -/
structure StepEntry where
  step : String
  status : String
  notedAt : Option Int
  startedAt : Option Int
  finishedAt : Option Int
  durationSeconds : Option Int
  message : Option String
deriving Repr, DecidableEq

/-- The in-memory state of a `ProgressLog`: the `data` dictionary
(fields in declaration order: initial keys, then the keys added later as
`Option`) together with `_active_starts`. -/
structure ProgressState where
  session : String
  dryRun : Bool
  startedAt : Int
  status : String
  runOrder : List String
  steps : List StepEntry
  finishedAt : Option Int
  message : Option String
  lastCompletedStep : Option String
  activeStarts : List (String × Int)
deriving Repr, DecidableEq

/-- Python dict assignment `d[k] = v`: overwrite in place, else append. -/
def assocSet (l : List (String × Int)) (k : String) (v : Int) : List (String × Int) :=
  if l.any (fun pr => pr.1 == k) then
    l.map (fun pr => if pr.1 == k then (k, v) else pr)
  else l ++ [(k, v)]

/-- Python `d.pop(k, None)`: the removed value (if any) and the remaining
dictionary. -/
def assocPop (l : List (String × Int)) (k : String) : Option Int × List (String × Int) :=
  ((l.find? (fun pr => pr.1 == k)).map (fun pr => pr.2),
    l.filter (fun pr => pr.1 != k))

/-- `entry.get("status") in {"running", "completed", "failed"}`. -/
def resolvedStatus (st : String) : Bool :=
  st == "running" || st == "completed" || st == "failed"

/-- `_find_step_entry` walks `data["steps"]` in reverse and mutates the
first hit; equivalently, update the last matching entry in place (no
match leaves the list unchanged — the source raises `KeyError` instead,
which the callers below surface as `.error`). -/
def updateLastMatching (p : StepEntry → Bool) (f : StepEntry → StepEntry) :
    List StepEntry → List StepEntry
  | [] => []
  | e :: es =>
    if es.any p then e :: updateLastMatching p f es
    else if p e then f e :: es
    else e :: es

/-- `if message:` — only a non-empty message is attached. -/
def truthyMsg : Option String → Bool
  | some m => m != ""
  | none => false

/-- The `ProgressLog` constructor: initial `data` dictionary with status
`"running"` and no steps (the constructor's `_write` is part of the
persistence model below). -/
def ProgressLog.init (session : String) (dryRun : Bool) (runOrder : List String)
    (startedAt : Int) : ProgressState :=
  ProgressState.mk session dryRun startedAt "running" runOrder [] none none none []

/-- `plan_step`: append a `"planned"` entry stamped `noted_at`. -/
def planStep (s : ProgressState) (step : String) (now : Int) : ProgressState :=
  ProgressState.mk s.session s.dryRun s.startedAt s.status s.runOrder
    (s.steps ++ [StepEntry.mk step "planned" (some now) none none none none])
    s.finishedAt s.message s.lastCompletedStep s.activeStarts

/-- `start_step`: remember the start time and append a `"running"`
entry. -/
def startStep (s : ProgressState) (step : String) (now : Int) : ProgressState :=
  ProgressState.mk s.session s.dryRun s.startedAt s.status s.runOrder
    (s.steps ++ [StepEntry.mk step "running" none (some now) none none none])
    s.finishedAt s.message s.lastCompletedStep (assocSet s.activeStarts step now)

/-- The entry mutation performed by `complete_step`: set status and
finish time, record a duration when a start time was being tracked, and
attach a non-empty message. -/
def completeEntry (status : String) (now : Int) (startTime : Option Int)
    (message : Option String) (e : StepEntry) : StepEntry :=
  StepEntry.mk e.step status e.notedAt e.startedAt (some now)
    (match startTime with
     | some t0 => some (now - t0)
     | none => e.durationSeconds)
    (if truthyMsg message then message else e.message)

/-- `complete_step(step, status=..., message=...)`: locate the most
recent running/completed/failed entry for the step (`KeyError` → `.error`
when there is none), update it, drop the remembered start time, and move
the `last_completed_step` pointer when the status is `"completed"`. -/
def completeStep (s : ProgressState) (step : String) (status : String)
    (message : Option String) (now : Int) : Except String ProgressState :=
  let p := fun (e : StepEntry) => e.step == step && resolvedStatus e.status
  if s.steps.any p then
    let popped := assocPop s.activeStarts step
    .ok (ProgressState.mk s.session s.dryRun s.startedAt s.status s.runOrder
      (updateLastMatching p (completeEntry status now popped.1 message) s.steps)
      s.finishedAt s.message
      (if status == "completed" then some step else s.lastCompletedStep)
      popped.2)
  else .error ("No step entry recorded for " ++ step)

/-- `fail_step` = `complete_step` with status `"failed"`. -/
def failStep (s : ProgressState) (step : String) (message : Option String)
    (now : Int) : Except String ProgressState :=
  completeStep s step "failed" message now

/-- The entry mutation of `finish`'s clean-up loop: force-fail a pending
step using the run's finish time, with `setdefault` message semantics. -/
def failPendingEntry (now started : Int) (message : Option String) (e : StepEntry) : StepEntry :=
  StepEntry.mk e.step "failed" e.notedAt e.startedAt (some now) (some (now - started))
    (if truthyMsg message && e.message == none then message else e.message)

/-- `finish`'s `while self._active_starts:` loop over the pending steps
(`popitem` order, i.e. most recently inserted first); `_find_step_entry`
raising `KeyError` for a pending step surfaces as `.error`. -/
def failPending (now : Int) (message : Option String) :
    List StepEntry → List (String × Int) → Except String (List StepEntry)
  | steps, [] => .ok steps
  | steps, (st, started) :: rest =>
    let p := fun (e : StepEntry) => e.step == st && resolvedStatus e.status
    if steps.any p then
      failPending now message (updateLastMatching p (failPendingEntry now started message) steps) rest
    else .error ("No step entry recorded for " ++ st)

/-- `finish(status, message)`: set the overall status, finish time and
(non-empty) message, then force-fail every step still recorded as
running; the final durable write persists the returned state. -/
def finishRun (s : ProgressState) (status : String) (message : Option String)
    (now : Int) : Except String ProgressState :=
  match failPending now message s.steps s.activeStarts.reverse with
  | .ok steps =>
    .ok (ProgressState.mk s.session s.dryRun s.startedAt status s.runOrder steps
      (some now) (if truthyMsg message then message else s.message)
      s.lastCompletedStep [])
  | .error e => .error e

/-- The mutating lifecycle operations of a `ProgressLog` (after
construction), each carrying the `datetime.now()` observed at the call.
`complete_step` is exercised with its default status `"completed"`; the
`"failed"` status is reached through `fail_step`. -/
inductive PLOp where
  | plan (step : String) (now : Int)
  | start (step : String) (now : Int)
  | complete (step : String) (message : Option String) (now : Int)
  | fail (step : String) (message : Option String) (now : Int)
  | finishOp (status : String) (message : Option String) (now : Int)
deriving Repr, DecidableEq

def applyOp (s : ProgressState) : PLOp → Except String ProgressState
  | .plan step now => .ok (planStep s step now)
  | .start step now => .ok (startStep s step now)
  | .complete step message now => completeStep s step "completed" message now
  | .fail step message now => failStep s step message now
  | .finishOp status message now => finishRun s status message now

def applyOps (s : ProgressState) : List PLOp → Except String ProgressState
  | [] => .ok s
  | op :: ops =>
    match applyOp s op with
    | .ok s' => applyOps s' ops
    | .error e => .error e

/-- The steps started by a sequence of operations, with multiplicity. -/
def startsOf (ops : List PLOp) : List String :=
  ops.filterMap (fun op =>
    match op with
    | .start step _ => some step
    | _ => none)

/-! ## The atomic replace protocol of `ProgressLog._write`

The serialisation below stands in for `json.dumps(self.data, indent=2)`:
the exact text format is irrelevant to the protocol, what matters is that
every write carries the full serialised current state.  The filesystem is
modelled as four slots: the two destination files and their `.tmp`
siblings; `write_text` on a `.tmp` file passes through every partial
prefix, while `Path.replace` is a single atomic transition. -/

def serializeOptInt : Option Int → String
  | some n => toString n
  | none => "null"

def serializeOptStr : Option String → String
  | some s => "<" ++ s ++ ">"
  | none => "null"

/-- Serialised form of one `data["steps"]` entry. -/
def serializeEntry (e : StepEntry) : String :=
  "step=" ++ e.step ++ ",status=" ++ e.status ++
    ",noted_at=" ++ serializeOptInt e.notedAt ++
    ",started_at=" ++ serializeOptInt e.startedAt ++
    ",finished_at=" ++ serializeOptInt e.finishedAt ++
    ",duration_seconds=" ++ serializeOptInt e.durationSeconds ++
    ",message=" ++ serializeOptStr e.message

/-- Serialised form of the full session document (`json.dumps(self.data)`). -/
def serializeSession (s : ProgressState) : String :=
  "session=" ++ s.session ++
    ";dry_run=" ++ toString s.dryRun ++
    ";started_at=" ++ toString s.startedAt ++
    ";status=" ++ s.status ++
    ";run_order=" ++ String.intercalate "|" s.runOrder ++
    ";steps=" ++ String.intercalate "|" (s.steps.map serializeEntry) ++
    ";finished_at=" ++ serializeOptInt s.finishedAt ++
    ";message=" ++ serializeOptStr s.message ++
    ";last_completed_step=" ++ serializeOptStr s.lastCompletedStep

/-- Serialised form of the derived `latest.json` payload (session id,
status, start/finish timestamps, last completed step; the constant
`progress_file` name is elided). -/
def serializeLatest (s : ProgressState) : String :=
  "session=" ++ s.session ++
    ";status=" ++ s.status ++
    ";started_at=" ++ toString s.startedAt ++
    ";finished_at=" ++ serializeOptInt s.finishedAt ++
    ";last_completed_step=" ++ serializeOptStr s.lastCompletedStep

/-- The four files `_write` touches, as observable by a concurrent
reader. -/
structure FSState where
  sessionFile : Option String
  sessionTmp : Option String
  latestFile : Option String
  latestTmp : Option String
deriving Repr, DecidableEq

def FSState.withSessionTmp (fs : FSState) (v : Option String) : FSState :=
  FSState.mk fs.sessionFile v fs.latestFile fs.latestTmp

def FSState.withLatestTmp (fs : FSState) (v : Option String) : FSState :=
  FSState.mk fs.sessionFile fs.sessionTmp fs.latestFile v

/-- `tmp_path.replace(self.path)`: the destination atomically becomes the
tmp file's content and the tmp file disappears. -/
def FSState.replaceSession (fs : FSState) : FSState :=
  FSState.mk fs.sessionTmp none fs.latestFile fs.latestTmp

/-- `tmp_latest.replace(self.latest_path)`. -/
def FSState.replaceLatest (fs : FSState) : FSState :=
  FSState.mk fs.sessionFile fs.sessionTmp fs.latestTmp none

/-- The intermediate filesystem states while `write_text` fills the
session tmp file: every prefix of the content may be observed there; the
destination files are untouched. -/
def sessionTmpStates (fs : FSState) (content : String) : List FSState :=
  (List.range (content.length + 1)).map
    (fun i => fs.withSessionTmp (some (content.take i)))

/-- Likewise for the latest tmp file. -/
def latestTmpStates (fs : FSState) (content : String) : List FSState :=
  (List.range (content.length + 1)).map
    (fun i => fs.withLatestTmp (some (content.take i)))

/-- Every filesystem state passed through by one `_write(doc, ldoc)`:
write session tmp (partial states), rename it over the session file,
write latest tmp (partial states), rename it over `latest.json`. -/
def progressWriteTrace (init : FSState) (doc ldoc : String) : List FSState :=
  let afterTmp := init.withSessionTmp (some doc)
  let afterRep := afterTmp.replaceSession
  let afterLTmp := afterRep.withLatestTmp (some ldoc)
  let afterLRep := afterLTmp.replaceLatest
  sessionTmpStates init doc ++ [afterRep] ++ latestTmpStates afterRep ldoc ++ [afterLRep]

/-- One mutating `ProgressLog` call: construction or a lifecycle
operation on a pre-state. -/
inductive PLMutation where
  | construct (session : String) (dryRun : Bool) (runOrder : List String) (startedAt : Int)
  | lifecycle (pre : ProgressState) (op : PLOp)

/-- The in-memory state a mutation leaves behind (and serialises). -/
def mutationPost : PLMutation → Except String ProgressState
  | .construct session dryRun runOrder startedAt =>
    .ok (ProgressLog.init session dryRun runOrder startedAt)
  | .lifecycle pre op => applyOp pre op

/-- The filesystem trace of one mutating call: every mutation ends in a
single `_write` of the complete post-state; a call that raises before
mutating (`KeyError` in `_find_step_entry`) never reaches `_write`. -/
def mutationTrace (m : PLMutation) (init : FSState) : List FSState :=
  match mutationPost m with
  | .ok post => progressWriteTrace init (serializeSession post) (serializeLatest post)
  | .error _ => []

/-! ## `GWASPipeline.run` (`pipeline.py`)

Step handlers are abstracted to their contract: return normally or raise
with a message.  The log-file side channel is modelled only as a file
creation event; `datetime.now()` observations are an abstract increasing
tick.  The two fault flags inject a write failure into `fail_step` /
`finish` during the `except` branch (in the source the in-memory
mutation precedes `_write`, so a write fault loses the persistence but
keeps the mutation). -/

inductive RunOutcome where
  | ok
  | configErr (msg : String)
  | raised (msg : String)
deriving Repr, DecidableEq

structure RunResult where
  outcome : RunOutcome
  finalSession : Option ProgressState
  invoked : List String
  writes : List String
deriving Repr, DecidableEq

def progressFileName (sessionName : String) : String := sessionName ++ ".json"

def latestFileName : String := "latest.json"

def logFileName (sessionName : String) : String := sessionName ++ ".log"

/-- The two files persisted by one `ProgressLog._write`. -/
def sessionWriteEvents (sessionName : String) : List String :=
  [progressFileName sessionName, latestFileName]

/-- Run order determination at the top of `run`: explicit selections go
through `resolveSelection` (`.ok none` = the empty-selection early
return); otherwise `configured_steps()` supplies the default order. -/
def resolveRunOrder (selection : Option (List String)) (cfg : CVal) :
    Except String (Option (List String)) :=
  match selection with
  | some sel => resolveSelection sel
  | none =>
    match configuredSteps ((configGet cfg ["steps"]).getD (.dict [])) with
    | .ok ord => .ok (some ord)
    | .error e => .error e

structure LoopResult where
  state : ProgressState
  tick : Int
  invoked : List String
  writes : List String
  failure : Option (String × String)
deriving Repr, DecidableEq

/-- The live step loop: `start_step`, invoke the handler, `complete_step`
on success; the first exception (from the handler, or a `KeyError` from
`complete_step`) stops the loop with the failing step and message. -/
def runLoop (handlers : String → Except String Unit) (sessionName : String) :
    List String → ProgressState → Int → List String → List String → LoopResult
  | [], s, t, inv, ws => LoopResult.mk s t inv ws none
  | step :: rest, s, t, inv, ws =>
    let s1 := startStep s step t
    let ws1 := ws ++ sessionWriteEvents sessionName
    match handlers step with
    | .error msg => LoopResult.mk s1 (t + 1) (inv ++ [step]) ws1 (some (step, msg))
    | .ok _ =>
      match completeStep s1 step "completed" none (t + 1) with
      | .ok s2 =>
        runLoop handlers sessionName rest s2 (t + 2) (inv ++ [step])
          (ws1 ++ sessionWriteEvents sessionName)
      | .error e => LoopResult.mk s1 (t + 1) (inv ++ [step]) ws1 (some (step, e))

/-- The dry-run loop: `plan_step` for every step, no handler calls. -/
def dryLoop (sessionName : String) :
    List String → ProgressState → Int → List String → ProgressState × Int × List String
  | [], s, t, ws => (s, t, ws)
  | step :: rest, s, t, ws =>
    dryLoop sessionName rest (planStep s step t) (t + 1)
      (ws ++ sessionWriteEvents sessionName)

/-- `GWASPipeline.run(selected_steps, dry_run)`. -/
def runPipeline (selection : Option (List String)) (cfg : CVal) (dryRun : Bool)
    (handlers : String → Except String Unit) (failWriteFault finishWriteFault : Bool)
    (sessionName : String) : RunResult :=
  match resolveRunOrder selection cfg with
  | .error e => RunResult.mk (.configErr e) none [] []
  | .ok none => RunResult.mk .ok none [] []
  | .ok (some runOrder) =>
    let s0 := ProgressLog.init sessionName dryRun runOrder 0
    let ws0 := sessionWriteEvents sessionName ++ [logFileName sessionName]
    if dryRun then
      let d := dryLoop sessionName runOrder s0 1 ws0
      match finishRun d.1 "dry_run" none d.2.1 with
      | .ok s' => RunResult.mk .ok (some s') [] (d.2.2 ++ sessionWriteEvents sessionName)
      | .error e => RunResult.mk (.raised e) (some d.1) [] d.2.2
    else
      let lr := runLoop handlers sessionName runOrder s0 1 [] ws0
      match lr.failure with
      | none =>
        match finishRun lr.state "completed" none lr.tick with
        | .ok s' =>
          RunResult.mk .ok (some s') lr.invoked
            (lr.writes ++ sessionWriteEvents sessionName)
        | .error e => RunResult.mk (.raised e) (some lr.state) lr.invoked lr.writes
      | some fl =>
        let afterFail : ProgressState × List String :=
          match failStep lr.state fl.1 (some fl.2) lr.tick with
          | .ok s2 => (s2, if failWriteFault then [] else sessionWriteEvents sessionName)
          | .error _ => (lr.state, [])
        let afterFin : ProgressState × List String :=
          match finishRun afterFail.1 "failed" (some fl.2) (lr.tick + 1) with
          | .ok s3 => (s3, if finishWriteFault then [] else sessionWriteEvents sessionName)
          | .error _ => (afterFail.1, [])
        RunResult.mk (.raised fl.2) (some afterFin.1) lr.invoked
          (lr.writes ++ afterFail.2 ++ afterFin.2)

instance {ε α : Type} [DecidableEq ε] [DecidableEq α] : DecidableEq (Except ε α) :=
  fun a b =>
    match a, b with
    | .ok x, .ok y =>
      if h : x = y then isTrue (by rw [h]) else isFalse (fun he => by cases he; exact h rfl)
    | .error x, .error y =>
      if h : x = y then isTrue (by rw [h]) else isFalse (fun he => by cases he; exact h rfl)
    | .ok _, .error _ => isFalse (fun he => Except.noConfusion he)
    | .error _, .ok _ => isFalse (fun he => Except.noConfusion he)

/-! ## Claim C5: run-order deduplication -/

/-- Claim C5: for every selection list (tokens may be comma-joined), the
run order computed by `GWASPipeline.run` after alias resolution contains
each resolved identifier exactly once, in order of first occurrence in
the resolved selection. -/
theorem run_order_first_occurrence (sel : List String) (order : List String)
    (h : resolveSelection sel = .ok (some order)) :
    order = firstOccur (normaliseSelection (splitSelection sel)).1 ∧ order.Nodup := by
  simp only [resolveSelection] at h
  split_ifs at h with h1 h2
  · exact absurd h (by simp)
  · simp only [Except.ok.injEq, Option.some.injEq] at h
    subst h
    exact ⟨dedupFirst_eq_firstOccur _, dedupFirst_nodup _⟩

/-- Witness for C5, realising the spec's `["stepA","stepA","stepB"]`
example with registered identifiers. -/
theorem run_order_first_occurrence_witness :
    (["step01_filter_variants", "step02_filter_mapped_snps"]
        = firstOccur (normaliseSelection (splitSelection
            ["step01_filter_variants", "step01_filter_variants",
              "step02_filter_mapped_snps"])).1)
    ∧ (["step01_filter_variants", "step02_filter_mapped_snps"] : List String).Nodup :=
  run_order_first_occurrence _ _ (by decide)

/-! ## Claim C9: default run order from the configuration -/

theorem configuredSteps_fold (steps : List (String × CVal)) (seq : List (String × String)) :
    ∀ (acc : List String), (∀ pr ∈ seq, pr.2 ≠ "") →
      seq.foldl (configuredStepsFold steps) acc
        = acc ++ (seq.filter
            (fun pr => isDictOpt (dictGet steps pr.1) || isDictOpt (dictGet steps pr.2))).map
              Prod.fst := by
  induction seq with
  | nil => intro acc _; simp
  | cons pr rest ih =>
    intro acc hne
    have hpr2 : decide (pr.2 ≠ "") = true := by
      simp [hne pr (List.mem_cons_self _ _)]
    simp only [List.foldl_cons, List.filter_cons]
    by_cases hd : isDictOpt (dictGet steps pr.1)
    · have hfold : configuredStepsFold steps acc pr = acc ++ [pr.1] := by
        simp [configuredStepsFold, hd]
      rw [hfold, ih _ (fun q hq => hne q (List.mem_cons_of_mem _ hq))]
      simp [hd, List.append_assoc]
    · have hfold : configuredStepsFold steps acc pr
          = if isDictOpt (dictGet steps pr.2) then acc ++ [pr.1] else acc := by
        simp [configuredStepsFold, hd, hpr2]
      by_cases hl : isDictOpt (dictGet steps pr.2)
      · rw [hfold, if_pos hl, ih _ (fun q hq => hne q (List.mem_cons_of_mem _ hq))]
        simp [hd, hl, List.append_assoc]
      · rw [hfold, if_neg hl, ih _ (fun q hq => hne q (List.mem_cons_of_mem _ hq))]
        simp [hd, hl]

/-- Claim C9: the default run order is exactly the subsequence of the
canonical ordering whose steps have a mapping configured under the
canonical or the legacy key (presence of the mapping only — its content
is never inspected). -/
theorem configured_steps_spec (steps : List (String × CVal)) :
    configuredSteps (.dict steps)
      = .ok ((STEP_SEQUENCE.filter
          (fun pr => isDictOpt (dictGet steps pr.1) || isDictOpt (dictGet steps pr.2))).map
            Prod.fst)
    ∧ ((STEP_SEQUENCE.filter
          (fun pr => isDictOpt (dictGet steps pr.1) || isDictOpt (dictGet steps pr.2))).map
            Prod.fst).Sublist STEP_ORDER := by
  constructor
  · have hdef : configuredSteps (.dict steps)
        = .ok (STEP_SEQUENCE.foldl (configuredStepsFold steps) []) := rfl
    rw [hdef, configuredSteps_fold steps STEP_SEQUENCE [] (by decide)]
    rfl
  · exact List.Sublist.map Prod.fst (List.filter_sublist _)

/-! ## Claim C10: empty explicit selection is a no-op -/

/-- Claim C10: an explicit selection whose tokens reduce to nothing after
comma-splitting and stripping makes `run` return normally with no
session, no files written, and no handler invoked. -/
theorem empty_selection_early_return (sel : List String) (cfg : CVal) (dryRun : Bool)
    (handlers : String → Except String Unit) (f1 f2 : Bool) (sessionName : String)
    (h : splitSelection sel = []) :
    runPipeline (some sel) cfg dryRun handlers f1 f2 sessionName
      = RunResult.mk .ok none [] [] := by
  have hres : resolveRunOrder (some sel) cfg = .ok none := by
    simp only [resolveRunOrder, resolveSelection, h]
    rfl
  unfold runPipeline
  rw [hres]

/-- Witness for C10: whitespace and bare-comma tokens flatten to an empty
selection. -/
theorem empty_selection_early_return_witness :
    runPipeline (some [" ", ","]) .other false (fun _ => .error "never") false false "run_w10"
      = RunResult.mk .ok none [] [] :=
  empty_selection_early_return _ _ _ _ _ _ _ (by decide)

/-! ## Claim C4: unknown selection tokens abort before any session -/

theorem joinComma_names (l : List String) (t : String) (ht : t ∈ l) :
    ∃ pre post, joinComma l = pre ++ (t ++ post) := by
  induction l with
  | nil => cases ht
  | cons x xs ih =>
    rcases List.mem_cons.mp ht with rfl | hm
    · cases xs with
      | nil =>
        refine ⟨"", "", ?_⟩
        rw [String.append_empty]
        rfl
      | cons y ys => exact ⟨"", ", " ++ joinComma (y :: ys), rfl⟩
    · cases xs with
      | nil => cases hm
      | cons y ys =>
        obtain ⟨pre, post, hpp⟩ := ih hm
        refine ⟨(x ++ ", ") ++ pre, post, ?_⟩
        show x ++ (", " ++ joinComma (y :: ys)) = ((x ++ ", ") ++ pre) ++ (t ++ post)
        rw [hpp]
        simp [String.append_assoc]

/-- Claim C4: a selection containing tokens that resolve to no registered
handler makes `run` raise a configuration error before a session exists
(no records, no files, no handlers invoked), and the error message names
every unresolved token. -/
theorem unknown_steps_abort (sel : List String) (cfg : CVal) (dryRun : Bool)
    (handlers : String → Except String Unit) (f1 f2 : Bool) (sessionName : String)
    (h : (normaliseSelection (splitSelection sel)).2 ≠ []) :
    runPipeline (some sel) cfg dryRun handlers f1 f2 sessionName
      = RunResult.mk
          (.configErr (unknownMessage (normaliseSelection (splitSelection sel)).2))
          none [] []
    ∧ ∀ t ∈ (normaliseSelection (splitSelection sel)).2,
        ∃ pre post,
          unknownMessage (normaliseSelection (splitSelection sel)).2
            = pre ++ (t ++ post) := by
  constructor
  · have hres : resolveRunOrder (some sel) cfg
        = .error (unknownMessage (normaliseSelection (splitSelection sel)).2) := by
      simp only [resolveRunOrder, resolveSelection]
      rw [if_pos h]
    unfold runPipeline
    rw [hres]
  · intro t ht
    obtain ⟨pre, post, hpp⟩ := joinComma_names _ t ht
    refine ⟨"Unknown step(s): " ++ pre, post, ?_⟩
    show "Unknown step(s): " ++ joinComma (normaliseSelection (splitSelection sel)).2 = _
    rw [hpp]
    simp [String.append_assoc]

/-- Witness for C4: one valid and two bogus tokens; the error lists both
bogus tokens and nothing was created. -/
theorem unknown_steps_abort_witness :
    runPipeline (some ["step01_filter_variants", "bogus1", "bogus2"]) .other false
        (fun _ => .ok ()) false false "run_w4"
      = RunResult.mk (.configErr "Unknown step(s): bogus1, bogus2") none [] [] :=
  (unknown_steps_abort ["step01_filter_variants", "bogus1", "bogus2"] .other false
    (fun _ => .ok ()) false false "run_w4" (by decide)).1

/-! ## Claim C8: input-path fallback resolution -/

/-- Claim C8: `_resolve_input_path` returns the resolved primary key when
it is set (non-empty), falls back to the fallback key path when the
primary is unset and the fallback resolves, and otherwise fails with an
error naming the original key. -/
theorem resolve_input_path_spec (cfg : CVal) (root : String)
    (stepCfg : List (String × CVal)) (key : String) (fks : List String) :
    (∀ s, dictGet stepCfg key = some (.str s) → s ≠ "" →
        ∃ p, resolvePath root (some s) = some p
          ∧ resolveInputPath cfg root stepCfg key fks = .ok p)
    ∧ (∀ p, (∀ v, dictGet stepCfg key = some v → cvTruthy v = false) →
        fks ≠ [] → configPath cfg root fks = .ok (some p) →
        resolveInputPath cfg root stepCfg key fks = .ok p)
    ∧ ((∀ v, dictGet stepCfg key = some v → cvTruthy v = false) →
        (fks = [] ∨ configPath cfg root fks = .ok none) →
        resolveInputPath cfg root stepCfg key fks
          = .error ("Missing input path for key '" ++ key ++ "' and no fallback provided")) := by
  refine ⟨?_, ?_, ?_⟩
  · intro s hs hne
    have htr : cvTruthy (.str s) = true := by simp [cvTruthy, hne]
    have hrp : ∃ p, resolvePath root (some s) = some p := by
      simp only [resolvePath]
      rw [if_neg hne]
      by_cases habs : isAbsolutePath s
      · exact ⟨s, by rw [if_pos habs]⟩
      · exact ⟨root ++ "/" ++ s, by rw [if_neg habs]⟩
    obtain ⟨p, hp⟩ := hrp
    refine ⟨p, hp, ?_⟩
    unfold resolveInputPath
    rw [hs]
    simp only [htr, if_true, hp]
  · intro p hfal hfks hcp
    unfold resolveInputPath
    cases hd : dictGet stepCfg key with
    | none => simp only [if_pos hfks, hcp]
    | some v =>
      have hv := hfal v hd
      simp only [hv, Bool.false_eq_true, if_false, if_pos hfks, hcp]
  · intro hfal hor
    unfold resolveInputPath
    have hfb :
        (if fks ≠ [] then
          match configPath cfg root fks with
          | .ok (some p) => Except.ok p
          | .ok none =>
            Except.error ("Missing input path for key '" ++ key ++ "' and no fallback provided")
          | .error e => Except.error e
        else
          Except.error ("Missing input path for key '" ++ key ++ "' and no fallback provided"))
          = (Except.error ("Missing input path for key '" ++ key ++ "' and no fallback provided")
              : Except String String) := by
      by_cases hfe : fks = []
      · rw [if_neg (by simp [hfe])]
      · have hcp : configPath cfg root fks = .ok none := hor.resolve_left hfe
        rw [if_pos hfe, hcp]
    cases hd : dictGet stepCfg key with
    | none => exact hfb
    | some v =>
      have hv := hfal v hd
      simp only [hv, Bool.false_eq_true, if_false]
      exact hfb

/-- Witness for C8: the three branches on concrete configurations. -/
theorem resolve_input_path_spec_witness :
    (resolveInputPath .other "/proj" [("input_csv", .str "data/in.csv")] "input_csv"
        ["paths", "raw_genotypes"] = .ok "/proj/data/in.csv")
    ∧ (resolveInputPath (.dict [("paths", .dict [("raw_genotypes", .str "raw.csv")])]) "/proj"
        [] "input_csv" ["paths", "raw_genotypes"] = .ok "/proj/raw.csv")
    ∧ (resolveInputPath (.dict []) "/proj" [] "input_csv" ["paths", "raw_genotypes"]
        = .error "Missing input path for key 'input_csv' and no fallback provided") := by
  refine ⟨?_, ?_, ?_⟩
  · obtain ⟨p, hp, hr⟩ :=
      (resolve_input_path_spec .other "/proj" [("input_csv", .str "data/in.csv")]
        "input_csv" ["paths", "raw_genotypes"]).1 "data/in.csv" rfl (by decide)
    have hpe : p = "/proj/data/in.csv" := by
      have h2 : resolvePath "/proj" (some "data/in.csv") = some "/proj/data/in.csv" := by decide
      rw [h2] at hp
      exact (Option.some.injEq _ _).mp hp.symm
    rw [hpe] at hr
    exact hr
  · exact
      (resolve_input_path_spec (.dict [("paths", .dict [("raw_genotypes", .str "raw.csv")])])
        "/proj" [] "input_csv" ["paths", "raw_genotypes"]).2.1 "/proj/raw.csv"
        (fun v hv => Option.noConfusion hv) (by decide) (by decide)
  · exact
      (resolve_input_path_spec (.dict []) "/proj" [] "input_csv"
        ["paths", "raw_genotypes"]).2.2 (fun v hv => Option.noConfusion hv)
        (Or.inr (by decide))

/-! ## Claim C3: dry-run semantics -/

theorem dryLoop_state (sessionName : String) :
    ∀ (order : List String) (s : ProgressState) (t : Int) (ws : List String),
      ((dryLoop sessionName order s t ws).1.steps.map StepEntry.step
          = s.steps.map StepEntry.step ++ order)
      ∧ ((dryLoop sessionName order s t ws).1.steps.map StepEntry.status
          = s.steps.map StepEntry.status ++ List.replicate order.length "planned")
      ∧ (dryLoop sessionName order s t ws).1.activeStarts = s.activeStarts
      ∧ (dryLoop sessionName order s t ws).1.session = s.session
      ∧ (dryLoop sessionName order s t ws).1.message = s.message := by
  intro order
  induction order with
  | nil => intro s t ws; simp [dryLoop]
  | cons step rest ih =>
    intro s t ws
    obtain ⟨h1, h2, h3, h4, h5⟩ :=
      ih (planStep s step t) (t + 1) (ws ++ sessionWriteEvents sessionName)
    have hd : dryLoop sessionName (step :: rest) s t ws
        = dryLoop sessionName rest (planStep s step t) (t + 1)
            (ws ++ sessionWriteEvents sessionName) := rfl
    rw [hd]
    refine ⟨?_, ?_, h3, h4, h5⟩
    · rw [h1]
      simp [planStep, List.append_assoc]
    · rw [h2]
      simp [planStep, List.replicate_succ, List.append_assoc]

/-- Claim C3: with `dry_run=True` and a non-empty resolved run order, no
handler is invoked, the session holds exactly one `"planned"` record per
step in run order, and the final session status is `"dry_run"`. -/
theorem dry_run_spec (selection : Option (List String)) (cfg : CVal) (order : List String)
    (handlers : String → Except String Unit) (f1 f2 : Bool) (sessionName : String)
    (hord : resolveRunOrder selection cfg = .ok (some order)) (hne : order ≠ []) :
    (runPipeline selection cfg true handlers f1 f2 sessionName).outcome = .ok
    ∧ (runPipeline selection cfg true handlers f1 f2 sessionName).invoked = []
    ∧ (runPipeline selection cfg true handlers f1 f2 sessionName).finalSession.map
        (fun s => s.steps.map StepEntry.step) = some order
    ∧ (runPipeline selection cfg true handlers f1 f2 sessionName).finalSession.map
        (fun s => s.steps.map StepEntry.status)
        = some (List.replicate order.length "planned")
    ∧ (runPipeline selection cfg true handlers f1 f2 sessionName).finalSession.map
        ProgressState.status = some "dry_run" := by
  obtain ⟨h1, h2, h3, h4, h5⟩ :=
    dryLoop_state sessionName order (ProgressLog.init sessionName true order 0) 1
      (sessionWriteEvents sessionName ++ [logFileName sessionName])
  set d := dryLoop sessionName order (ProgressLog.init sessionName true order 0) 1
      (sessionWriteEvents sessionName ++ [logFileName sessionName]) with hdd
  have hact : d.1.activeStarts = [] := h3
  have hfin : finishRun d.1 "dry_run" none d.2.1
      = .ok (ProgressState.mk d.1.session d.1.dryRun d.1.startedAt "dry_run" d.1.runOrder
          d.1.steps (some d.2.1) d.1.message d.1.lastCompletedStep []) := by
    unfold finishRun
    rw [hact]
    rfl
  have hrun : runPipeline selection cfg true handlers f1 f2 sessionName
      = RunResult.mk .ok
          (some (ProgressState.mk d.1.session d.1.dryRun d.1.startedAt "dry_run" d.1.runOrder
            d.1.steps (some d.2.1) d.1.message d.1.lastCompletedStep []))
          [] (d.2.2 ++ sessionWriteEvents sessionName) := by
    unfold runPipeline
    rw [hord]
    simp only [if_true]
    rw [← hdd, hfin]
  rw [hrun]
  refine ⟨rfl, rfl, ?_, ?_, rfl⟩
  · simpa [ProgressLog.init] using h1
  · simpa [ProgressLog.init] using h2

/-- Witness for C3: a dry run over the legacy alias `filter_variants`. -/
theorem dry_run_spec_witness :
    (runPipeline (some ["filter_variants"]) .other true (fun _ => .error "never") false false
        "run_w3").outcome = .ok
    ∧ (runPipeline (some ["filter_variants"]) .other true (fun _ => .error "never") false false
        "run_w3").invoked = []
    ∧ (runPipeline (some ["filter_variants"]) .other true (fun _ => .error "never") false false
        "run_w3").finalSession.map (fun s => s.steps.map StepEntry.step)
        = some ["step01_filter_variants"]
    ∧ (runPipeline (some ["filter_variants"]) .other true (fun _ => .error "never") false false
        "run_w3").finalSession.map (fun s => s.steps.map StepEntry.status)
        = some (List.replicate (["step01_filter_variants"] : List String).length "planned")
    ∧ (runPipeline (some ["filter_variants"]) .other true (fun _ => .error "never") false false
        "run_w3").finalSession.map ProgressState.status = some "dry_run" :=
  dry_run_spec (some ["filter_variants"]) .other ["step01_filter_variants"]
    (fun _ => .error "never") false false "run_w3" (by decide) (by decide)

/-! ## Claims C1 and C7: live-run failure semantics -/

theorem updateLastMatching_concat (p : StepEntry → Bool) (f : StepEntry → StepEntry)
    (l : List StepEntry) (e : StepEntry) (he : p e = true) :
    updateLastMatching p f (l ++ [e]) = l ++ [f e] := by
  induction l with
  | nil => simp [updateLastMatching, he]
  | cons a l' ih =>
    have hany : ((l' ++ [e]).any p) = true := by simp [List.any_append, he]
    show updateLastMatching p f (a :: (l' ++ [e])) = a :: (l' ++ [f e])
    unfold updateLastMatching
    rw [hany]
    simp [ih]

/-- `complete_step` right after `start_step` (the happy path of the live
loop) updates exactly the just-appended running entry. -/
theorem completeStep_after_start (s : ProgressState) (step : String) (t now : Int)
    (hA : s.activeStarts = []) :
    completeStep (startStep s step t) step "completed" none now
      = .ok (ProgressState.mk s.session s.dryRun s.startedAt s.status s.runOrder
          (s.steps ++ [StepEntry.mk step "completed" none (some t) (some now)
            (some (now - t)) none])
          s.finishedAt s.message (some step) []) := by
  have hpe : (fun (e : StepEntry) => e.step == step && resolvedStatus e.status)
      (StepEntry.mk step "running" none (some t) none none none) = true := by
    simp [resolvedStatus]
  have hp : ((startStep s step t).steps.any
      (fun e => e.step == step && resolvedStatus e.status)) = true := by
    simp [startStep, resolvedStatus]
  have hpop : assocPop (startStep s step t).activeStarts step = (some t, []) := by
    show assocPop (assocSet s.activeStarts step t) step = _
    rw [hA]
    simp [assocSet, assocPop]
  have hupd : updateLastMatching
      (fun (e : StepEntry) => e.step == step && resolvedStatus e.status)
      (completeEntry "completed" now (some t) none)
      ((startStep s step t).steps)
      = s.steps ++ [StepEntry.mk step "completed" none (some t) (some now)
          (some (now - t)) none] := by
    show updateLastMatching _ _
        (s.steps ++ [StepEntry.mk step "running" none (some t) none none none]) = _
    rw [updateLastMatching_concat _ _ _ _ hpe]
    rfl
  unfold completeStep
  rw [if_pos hp]
  simp only [hpop, hupd]
  rfl

/-- Structure of the live loop when the handlers succeed on the first `k`
steps of the order and fail on step `k`: completed entries for the prefix,
a running entry for the failing step, handlers invoked exactly up to and
including `k`. -/
theorem runLoop_fail (handlers : String → Except String Unit) (sessionName : String)
    (msg : String) :
    ∀ (order : List String) (k : Nat) (s : ProgressState) (t : Int) (inv ws : List String),
      s.activeStarts = [] →
      k < order.length →
      (∀ j, j < k → handlers (order.getD j "") = .ok ()) →
      handlers (order.getD k "") = .error msg →
      ∃ cs tK,
        (runLoop handlers sessionName order s t inv ws).state.steps
            = s.steps ++ cs
              ++ [StepEntry.mk (order.getD k "") "running" none (some tK) none none none]
        ∧ cs.map (fun e => (e.step, e.status)) = (order.take k).map (fun st => (st, "completed"))
        ∧ cs.map StepEntry.message = List.replicate k none
        ∧ (runLoop handlers sessionName order s t inv ws).state.activeStarts
            = [(order.getD k "", tK)]
        ∧ (runLoop handlers sessionName order s t inv ws).invoked = inv ++ order.take (k + 1)
        ∧ (runLoop handlers sessionName order s t inv ws).failure
            = some (order.getD k "", msg) := by
  intro order
  induction order with
  | nil => intro k s t inv ws _ hk; exact absurd hk (by simp)
  | cons step rest ih =>
    intro k s t inv ws hA hk hok hfail
    cases k with
    | zero =>
      have hstep : handlers step = .error msg := hfail
      have hd : runLoop handlers sessionName (step :: rest) s t inv ws
          = LoopResult.mk (startStep s step t) (t + 1) (inv ++ [step])
              (ws ++ sessionWriteEvents sessionName) (some (step, msg)) := by
        unfold runLoop
        rw [hstep]
      refine ⟨[], t, ?_, rfl, rfl, ?_, ?_, ?_⟩
      · rw [hd]
        simp [startStep]
      · rw [hd]
        show assocSet s.activeStarts step t = _
        rw [hA]
        rfl
      · rw [hd]
        rfl
      · rw [hd]
        rfl
    | succ n =>
      have hstep : handlers step = .ok () := hok 0 (Nat.zero_lt_succ n)
      have hcomp := completeStep_after_start s step t (t + 1) hA
      have hd : runLoop handlers sessionName (step :: rest) s t inv ws
          = runLoop handlers sessionName rest
              (ProgressState.mk s.session s.dryRun s.startedAt s.status s.runOrder
                (s.steps ++ [StepEntry.mk step "completed" none (some t) (some (t + 1))
                  (some ((t + 1) - t)) none])
                s.finishedAt s.message (some step) [])
              (t + 2) (inv ++ [step])
              ((ws ++ sessionWriteEvents sessionName) ++ sessionWriteEvents sessionName) := by
        simp only [runLoop, hstep, hcomp]
      obtain ⟨cs, tK, h1, h2, h3, h4, h5, h6⟩ :=
        ih n
          (ProgressState.mk s.session s.dryRun s.startedAt s.status s.runOrder
            (s.steps ++ [StepEntry.mk step "completed" none (some t) (some (t + 1))
              (some ((t + 1) - t)) none])
            s.finishedAt s.message (some step) [])
          (t + 2) (inv ++ [step])
          ((ws ++ sessionWriteEvents sessionName) ++ sessionWriteEvents sessionName)
          rfl (Nat.lt_of_succ_lt_succ hk)
          (fun j hj => hok (j + 1) (Nat.succ_lt_succ hj))
          hfail
      refine ⟨StepEntry.mk step "completed" none (some t) (some (t + 1))
          (some ((t + 1) - t)) none :: cs, tK, ?_, ?_, ?_, ?_, ?_, ?_⟩
      · rw [hd, h1]
        simp [List.append_assoc]
      · simp only [List.map_cons, h2, List.take_succ_cons, List.getD_cons_succ]
      · simp only [List.map_cons, h3, List.replicate_succ]
      · rw [hd]
        exact h4
      · rw [hd, h5]
        simp [List.take_succ_cons]
      · rw [hd]
        exact h6

/-- The `except`-branch of `run` after a handler failure, as a function
of the loop result: `fail_step`, `finish`, re-raise. -/
theorem runPipeline_error_path (selection : Option (List String)) (cfg : CVal)
    (handlers : String → Except String Unit) (f1 f2 : Bool) (sessionName : String)
    (order : List String) (stepK emsg : String) (s2 s3 : ProgressState)
    (hord : resolveRunOrder selection cfg = .ok (some order))
    (hfl : (runLoop handlers sessionName order (ProgressLog.init sessionName false order 0) 1
        [] (sessionWriteEvents sessionName ++ [logFileName sessionName])).failure
        = some (stepK, emsg))
    (hfs : failStep (runLoop handlers sessionName order
          (ProgressLog.init sessionName false order 0) 1 []
          (sessionWriteEvents sessionName ++ [logFileName sessionName])).state stepK
        (some emsg)
        (runLoop handlers sessionName order (ProgressLog.init sessionName false order 0) 1 []
          (sessionWriteEvents sessionName ++ [logFileName sessionName])).tick = .ok s2)
    (hfin : finishRun s2 "failed" (some emsg)
        ((runLoop handlers sessionName order (ProgressLog.init sessionName false order 0) 1 []
          (sessionWriteEvents sessionName ++ [logFileName sessionName])).tick + 1) = .ok s3) :
    (runPipeline selection cfg false handlers f1 f2 sessionName).outcome = .raised emsg
    ∧ (runPipeline selection cfg false handlers f1 f2 sessionName).finalSession = some s3
    ∧ (runPipeline selection cfg false handlers f1 f2 sessionName).invoked
        = (runLoop handlers sessionName order (ProgressLog.init sessionName false order 0) 1 []
            (sessionWriteEvents sessionName ++ [logFileName sessionName])).invoked := by
  unfold runPipeline
  rw [hord]
  simp only [Bool.false_eq_true, if_false, hfl, hfs, hfin]
  exact ⟨trivial, trivial, trivial⟩

/-- Claim C1 (amended): in a live run whose handler fails at position `k`
(0-based) with a non-empty message, the session holds exactly `k + 1`
records — `"completed"` for the first `k` steps in order, `"failed"`
carrying the handler's message for step `k` — handlers after position `k`
are never invoked, and the original error propagates. -/
theorem handler_failure_records (selection : Option (List String)) (cfg : CVal)
    (order : List String) (handlers : String → Except String Unit) (f1 f2 : Bool)
    (sessionName : String) (k : Nat) (msg : String)
    (hord : resolveRunOrder selection cfg = .ok (some order))
    (hk : k < order.length)
    (hok : ∀ j, j < k → handlers (order.getD j "") = .ok ())
    (hfail : handlers (order.getD k "") = .error msg)
    (hmsg : msg ≠ "") :
    (runPipeline selection cfg false handlers f1 f2 sessionName).finalSession.map
        (fun s => s.steps.map (fun e => (e.step, e.status)))
      = some ((order.take k).map (fun st => (st, "completed"))
          ++ [(order.getD k "", "failed")])
    ∧ (runPipeline selection cfg false handlers f1 f2 sessionName).finalSession.map
        (fun s => s.steps.map StepEntry.message)
      = some (List.replicate k none ++ [some msg])
    ∧ (runPipeline selection cfg false handlers f1 f2 sessionName).invoked
      = order.take (k + 1)
    ∧ (runPipeline selection cfg false handlers f1 f2 sessionName).outcome = .raised msg := by
  obtain ⟨cs, tK, h1, h2, h3, h4, h5, h6⟩ :=
    runLoop_fail handlers sessionName msg order k (ProgressLog.init sessionName false order 0)
      1 [] (sessionWriteEvents sessionName ++ [logFileName sessionName]) rfl hk hok hfail
  set lr := runLoop handlers sessionName order (ProgressLog.init sessionName false order 0) 1
      [] (sessionWriteEvents sessionName ++ [logFileName sessionName]) with hlr
  rw [show (ProgressLog.init sessionName false order 0).steps = [] from rfl,
    List.nil_append] at h1
  have hpe : (fun (e : StepEntry) =>
        e.step == (order.getD k "") && resolvedStatus e.status)
      (StepEntry.mk (order.getD k "") "running" none (some tK) none none none) = true := by
    simp [resolvedStatus]
  have hguard : (lr.state.steps.any
      (fun e => e.step == order.getD k "" && resolvedStatus e.status)) = true := by
    rw [h1]
    simp [List.any_append, resolvedStatus]
  have hpop : assocPop lr.state.activeStarts (order.getD k "") = (some tK, []) := by
    rw [h4]
    simp [assocPop]
  have htm : truthyMsg (some msg) = true := by
    simp [truthyMsg, hmsg]
  have hfe : completeEntry "failed" lr.tick (some tK) (some msg)
        (StepEntry.mk (order.getD k "") "running" none (some tK) none none none)
      = StepEntry.mk (order.getD k "") "failed" none (some tK) (some lr.tick)
          (some (lr.tick - tK)) (some msg) := by
    simp [completeEntry, htm]
  have hupd : updateLastMatching
      (fun e => e.step == order.getD k "" && resolvedStatus e.status)
      (completeEntry "failed" lr.tick (some tK) (some msg))
      lr.state.steps
      = cs ++ [StepEntry.mk (order.getD k "") "failed" none (some tK) (some lr.tick)
          (some (lr.tick - tK)) (some msg)] := by
    rw [h1, updateLastMatching_concat _ _ _ _ hpe, hfe]
  have hfs : failStep lr.state (order.getD k "") (some msg) lr.tick
      = .ok (ProgressState.mk lr.state.session lr.state.dryRun lr.state.startedAt
          lr.state.status lr.state.runOrder
          (cs ++ [StepEntry.mk (order.getD k "") "failed" none (some tK) (some lr.tick)
            (some (lr.tick - tK)) (some msg)])
          lr.state.finishedAt lr.state.message lr.state.lastCompletedStep []) := by
    unfold failStep completeStep
    rw [if_pos hguard]
    simp only [hupd, hpop]
    rw [if_neg (by decide : ¬((("failed" : String) == "completed") = true))]
  have hfin : finishRun
      (ProgressState.mk lr.state.session lr.state.dryRun lr.state.startedAt
        lr.state.status lr.state.runOrder
        (cs ++ [StepEntry.mk (order.getD k "") "failed" none (some tK) (some lr.tick)
          (some (lr.tick - tK)) (some msg)])
        lr.state.finishedAt lr.state.message lr.state.lastCompletedStep [])
      "failed" (some msg) (lr.tick + 1)
      = .ok (ProgressState.mk lr.state.session lr.state.dryRun lr.state.startedAt
          "failed" lr.state.runOrder
          (cs ++ [StepEntry.mk (order.getD k "") "failed" none (some tK) (some lr.tick)
            (some (lr.tick - tK)) (some msg)])
          (some (lr.tick + 1))
          (if truthyMsg (some msg) then some msg else lr.state.message)
          lr.state.lastCompletedStep []) := rfl
  obtain ⟨ho, hsess, hinv⟩ :=
    runPipeline_error_path selection cfg handlers f1 f2 sessionName order
      (order.getD k "") msg _ _ hord h6 hfs hfin
  refine ⟨?_, ?_, ?_, ho⟩
  · rw [hsess]
    simp only [Option.map_some']
    rw [Option.some.injEq, List.map_append, h2]
    rfl
  · rw [hsess]
    simp only [Option.map_some']
    rw [Option.some.injEq, List.map_append, h3]
    rfl
  · rw [hinv, h5]
    rfl

/-- Witness for C1: a two-step run (comma-joined selection, legacy alias)
whose second handler fails with message `"boom"`. -/
theorem handler_failure_records_witness :
    (runPipeline (some ["step01_filter_variants,ibs_similarity"]) .other false
        (fun s => if s == "step05_calculate_ibs" then .error "boom" else .ok ()) false false
        "run_w1").finalSession.map (fun s => s.steps.map (fun e => (e.step, e.status)))
      = some [("step01_filter_variants", "completed"), ("step05_calculate_ibs", "failed")]
    ∧ (runPipeline (some ["step01_filter_variants,ibs_similarity"]) .other false
        (fun s => if s == "step05_calculate_ibs" then .error "boom" else .ok ()) false false
        "run_w1").finalSession.map (fun s => s.steps.map StepEntry.message)
      = some [none, some "boom"]
    ∧ (runPipeline (some ["step01_filter_variants,ibs_similarity"]) .other false
        (fun s => if s == "step05_calculate_ibs" then .error "boom" else .ok ()) false false
        "run_w1").invoked = ["step01_filter_variants", "step05_calculate_ibs"]
    ∧ (runPipeline (some ["step01_filter_variants,ibs_similarity"]) .other false
        (fun s => if s == "step05_calculate_ibs" then .error "boom" else .ok ()) false false
        "run_w1").outcome = .raised "boom" :=
  handler_failure_records (some ["step01_filter_variants,ibs_similarity"]) .other
    ["step01_filter_variants", "step05_calculate_ibs"]
    (fun s => if s == "step05_calculate_ibs" then .error "boom" else .ok ()) false false
    "run_w1" 1 "boom" (by decide) (by decide)
    (by
      intro j hj
      have hj0 : j = 0 := Nat.lt_one_iff.mp hj
      subst hj0
      decide)
    (by decide) (by decide)

/-- Counterexample to C1 exactly as stated: a handler that raises an
error whose message is empty yields a `"failed"` record with no message
at all (the source attaches the message only `if message:`), so the
failed record does not carry a non-empty message. -/
theorem handler_failure_empty_message :
    (runPipeline (some ["step01_filter_variants"]) .other false (fun _ => .error "") false
        false "run_cx").finalSession.map
        (fun s => s.steps.map (fun e => (e.step, e.status, e.message)))
      = some [("step01_filter_variants", "failed", (none : Option String))] := by decide

/-- Claim C7: when a handler raises, `run` re-raises the original error
even if `fail_step` or `finish` themselves raise while persisting the
failure state (write faults are injected through the two flags; the
`KeyError` branches of the recording calls are likewise swallowed). -/
theorem original_error_reraised (selection : Option (List String)) (cfg : CVal)
    (order : List String) (handlers : String → Except String Unit) (f1 f2 : Bool)
    (sessionName : String) (k : Nat) (msg : String)
    (hord : resolveRunOrder selection cfg = .ok (some order))
    (hk : k < order.length)
    (hok : ∀ j, j < k → handlers (order.getD j "") = .ok ())
    (hfail : handlers (order.getD k "") = .error msg) :
    (runPipeline selection cfg false handlers f1 f2 sessionName).outcome = .raised msg := by
  obtain ⟨cs, tK, h1, h2, h3, h4, h5, h6⟩ :=
    runLoop_fail handlers sessionName msg order k (ProgressLog.init sessionName false order 0)
      1 [] (sessionWriteEvents sessionName ++ [logFileName sessionName]) rfl hk hok hfail
  unfold runPipeline
  rw [hord]
  simp only [Bool.false_eq_true, if_false, h6]

/-- Witness for C7: both persistence faults armed; the handler's error
still propagates. -/
theorem original_error_reraised_witness :
    (runPipeline (some ["filter_variants"]) .other false (fun _ => .error "boom") true true
        "run_w7").outcome = .raised "boom" :=
  original_error_reraised (some ["filter_variants"]) .other ["step01_filter_variants"]
    (fun _ => .error "boom") true true "run_w7" 0 "boom" (by decide) (by decide)
    (fun j hj => absurd hj (Nat.not_lt_zero j)) (by decide)

/-! ## Claim C2: the atomic replace protocol -/

theorem progressWriteTrace_atomic (init : FSState) (doc ldoc : String) :
    ∀ fs ∈ progressWriteTrace init doc ldoc,
      (fs.sessionFile = init.sessionFile ∨ fs.sessionFile = some doc)
      ∧ (fs.latestFile = init.latestFile ∨ fs.latestFile = some ldoc) := by
  intro fs hfs
  simp only [progressWriteTrace, sessionTmpStates, latestTmpStates, List.mem_append,
    List.mem_map, List.mem_range, List.mem_singleton] at hfs
  rcases hfs with ((⟨i, hi, rfl⟩ | rfl) | ⟨i, hi, rfl⟩) | rfl
  · exact ⟨Or.inl rfl, Or.inl rfl⟩
  · exact ⟨Or.inr rfl, Or.inl rfl⟩
  · exact ⟨Or.inr rfl, Or.inl rfl⟩
  · exact ⟨Or.inr rfl, Or.inr rfl⟩

/-- Claim C2: every mutating `ProgressLog` call (construction and the
five lifecycle operations) persists both destinations by writing a tmp
file and renaming it over the destination, so at every intermediate
filesystem state a concurrent reader of the session file or of
`latest.json` sees either the previous complete serialised state or the
new complete serialised state, never a partial document. -/
theorem mutation_write_atomic (m : PLMutation) (init : FSState) (post : ProgressState)
    (hpost : mutationPost m = .ok post) :
    ∀ fs ∈ mutationTrace m init,
      (fs.sessionFile = init.sessionFile ∨ fs.sessionFile = some (serializeSession post))
      ∧ (fs.latestFile = init.latestFile ∨ fs.latestFile = some (serializeLatest post)) := by
  intro fs hfs
  unfold mutationTrace at hfs
  rw [hpost] at hfs
  exact progressWriteTrace_atomic init _ _ fs hfs

def c2WitnessPost : ProgressState :=
  ProgressLog.init "run_w2" false ["step01_filter_variants"] 0

def c2WitnessMut : PLMutation :=
  PLMutation.construct "run_w2" false ["step01_filter_variants"] 0

def c2WitnessInit : FSState := FSState.mk none none none none

/-- The last filesystem state of the constructor's write trace. -/
def c2WitnessFinal : FSState :=
  FSState.mk (some (serializeSession c2WitnessPost)) none
    (some (serializeLatest c2WitnessPost)) none

/-- Witness for C2: the state after both renames of the constructor's
`_write` carries the new complete serialisations of both files. -/
theorem mutation_write_atomic_witness :
    c2WitnessFinal ∈ mutationTrace c2WitnessMut c2WitnessInit
    ∧ ((c2WitnessFinal.sessionFile = c2WitnessInit.sessionFile
        ∨ c2WitnessFinal.sessionFile = some (serializeSession c2WitnessPost))
      ∧ (c2WitnessFinal.latestFile = c2WitnessInit.latestFile
        ∨ c2WitnessFinal.latestFile = some (serializeLatest c2WitnessPost))) :=
  have hm : c2WitnessFinal ∈ mutationTrace c2WitnessMut c2WitnessInit := by
    show c2WitnessFinal ∈ progressWriteTrace c2WitnessInit (serializeSession c2WitnessPost)
        (serializeLatest c2WitnessPost)
    simp only [progressWriteTrace]
    exact List.mem_append_right _ (List.mem_singleton.mpr rfl)
  ⟨hm, mutation_write_atomic c2WitnessMut c2WitnessInit c2WitnessPost rfl c2WitnessFinal hm⟩

/-! ## Claim C6: `finish` leaves no step running

The key data structure facts are about `updateLastMatching` (the model of
`_find_step_entry` + in-place mutation): it preserves length, changes at
most the last matching index, and — when at most one entry matches — hits
exactly the matching index. -/

theorem updateLastMatching_length (p : StepEntry → Bool) (f : StepEntry → StepEntry) :
    ∀ l : List StepEntry, (updateLastMatching p f l).length = l.length := by
  intro l
  induction l with
  | nil => rfl
  | cons e es ih =>
    unfold updateLastMatching
    by_cases ha : es.any p
    · rw [if_pos ha]
      simp [ih]
    · rw [if_neg ha]
      by_cases hp : p e
      · rw [if_pos hp]
        simp
      · rw [if_neg hp]

theorem updateLastMatching_getElem? (p : StepEntry → Bool) (f : StepEntry → StepEntry) :
    ∀ (l : List StepEntry) (i : Nat),
      (updateLastMatching p f l)[i]? = l[i]?
      ∨ ∃ e, l[i]? = some e ∧ p e = true ∧ (updateLastMatching p f l)[i]? = some (f e) := by
  intro l
  induction l with
  | nil => intro i; exact Or.inl rfl
  | cons e es ih =>
    intro i
    unfold updateLastMatching
    by_cases ha : es.any p
    · rw [if_pos ha]
      cases i with
      | zero => exact Or.inl (by simp)
      | succ j =>
        rcases ih j with h | ⟨e', he', hpe', hres⟩
        · exact Or.inl (by simpa using h)
        · exact Or.inr ⟨e', by simpa using he', hpe', by simpa using hres⟩
    · rw [if_neg ha]
      by_cases hp : p e
      · rw [if_pos hp]
        cases i with
        | zero => exact Or.inr ⟨e, by simp, hp, by simp⟩
        | succ j => exact Or.inl (by simp)
      · rw [if_neg hp]
        exact Or.inl rfl

theorem updateLastMatching_getElem?_of_not (p : StepEntry → Bool) (f : StepEntry → StepEntry)
    (l : List StepEntry) (i : Nat) (e : StepEntry) (he : l[i]? = some e) (hp : p e = false) :
    (updateLastMatching p f l)[i]? = some e := by
  rcases updateLastMatching_getElem? p f l i with h | ⟨e', he', hpe', hres⟩
  · rw [h, he]
  · rw [he] at he'
    cases (Option.some.injEq _ _).mp he'
    rw [hpe'] at hp
    cases hp

theorem countP_pos_of_any (p : StepEntry → Bool) (l : List StepEntry) (h : l.any p = true) :
    1 ≤ l.countP p := by
  rcases List.any_eq_true.mp h with ⟨e, hmem, hpe⟩
  have := List.countP_pos.mpr ⟨e, hmem, hpe⟩
  omega

theorem updateLastMatching_getElem?_unique (p : StepEntry → Bool) (f : StepEntry → StepEntry) :
    ∀ (l : List StepEntry) (i : Nat) (e : StepEntry), l[i]? = some e → p e = true →
      l.countP p ≤ 1 → (updateLastMatching p f l)[i]? = some (f e) := by
  intro l
  induction l with
  | nil => intro i e he; rw [List.getElem?_nil] at he; cases he
  | cons a es ih =>
    intro i e he hpe hcount
    have hcons : (a :: es).countP p = es.countP p + if p a then 1 else 0 :=
      List.countP_cons p a es
    unfold updateLastMatching
    by_cases ha : es.any p
    · rw [if_pos ha]
      cases i with
      | zero =>
        cases (Option.some.injEq _ _).mp (by simpa using he)
        have h1 : 1 ≤ es.countP p := countP_pos_of_any p es ha
        rw [hcons, if_pos hpe] at hcount
        omega
      | succ j =>
        have he' : es[j]? = some e := by simpa using he
        have hcount' : es.countP p ≤ 1 := by
          rw [hcons] at hcount
          omega
        simpa using ih j e he' hpe hcount'
    · rw [if_neg ha]
      have hnotes : ∀ x ∈ es, p x = false := by
        intro x hx
        by_contra hfx
        exact ha (List.any_eq_true.mpr ⟨x, hx, by
          cases hpx : p x
          · exact absurd hpx hfx
          · rfl⟩)
      by_cases hp : p a
      · rw [if_pos hp]
        cases i with
        | zero =>
          cases (Option.some.injEq _ _).mp (by simpa using he)
          simp
        | succ j =>
          have he' : es[j]? = some e := by simpa using he
          have hmem : e ∈ es := by
            rcases List.getElem?_eq_some.mp he' with ⟨hj, hget⟩
            exact hget ▸ List.getElem_mem hj
          rw [hnotes e hmem] at hpe
          cases hpe
      · rw [if_neg hp]
        cases i with
        | zero =>
          cases (Option.some.injEq _ _).mp (by simpa using he)
          rw [hpe] at hp
          cases hp rfl
        | succ j =>
          have he' : es[j]? = some e := by simpa using he
          have hmem : e ∈ es := by
            rcases List.getElem?_eq_some.mp he' with ⟨hj, hget⟩
            exact hget ▸ List.getElem_mem hj
          rw [hnotes e hmem] at hpe
          cases hpe

theorem updateLastMatching_countP (p q : StepEntry → Bool) (f : StepEntry → StepEntry)
    (hf : ∀ e, p e = true → q (f e) = q e) :
    ∀ l : List StepEntry, (updateLastMatching p f l).countP q = l.countP q := by
  intro l
  induction l with
  | nil => rfl
  | cons e es ih =>
    unfold updateLastMatching
    by_cases ha : es.any p
    · rw [if_pos ha]
      rw [List.countP_cons, List.countP_cons, ih]
    · rw [if_neg ha]
      by_cases hp : p e
      · rw [if_pos hp]
        rw [List.countP_cons, List.countP_cons, hf e hp]
      · rw [if_neg hp]

/-- The predicate of `_find_step_entry` for a given step identifier. -/
def stepPred (k : String) (e : StepEntry) : Bool :=
  e.step == k && resolvedStatus e.status

/-- Number of entries `_find_step_entry` could return for a step. -/
def matchCount (l : List StepEntry) (k : String) : Nat := l.countP (stepPred k)

/-- The step identifiers currently tracked in `_active_starts`. -/
def activeKeys (s : ProgressState) : List String := s.activeStarts.map Prod.fst

/-- The state invariant maintained by every `ProgressLog` lifecycle
operation when each step is started at most once: the steps recorded in
`consumed` (the starts so far) have exactly one resolved entry each and
no other step has any; running entries correspond exactly to
`_active_starts`, whose keys are distinct. -/
def ProgressInv (consumed : List String) (s : ProgressState) : Prop :=
  (∀ k, matchCount s.steps k = if k ∈ consumed then 1 else 0)
  ∧ (∀ (i : Nat) (e : StepEntry),
      s.steps[i]? = some e → e.status = "running" → e.step ∈ activeKeys s)
  ∧ (∀ k, k ∈ activeKeys s →
      ∃ (i : Nat) (e : StepEntry), s.steps[i]? = some e ∧ e.step = k ∧ e.status = "running")
  ∧ (activeKeys s).Nodup

theorem getElem?_append_single (l : List StepEntry) (x : StepEntry) (i : Nat) (e : StepEntry)
    (he : (l ++ [x])[i]? = some e) : l[i]? = some e ∨ (i = l.length ∧ e = x) := by
  by_cases hi : i < l.length
  · rw [List.getElem?_append_left hi] at he
    exact Or.inl he
  · have hge : l.length ≤ i := Nat.le_of_not_lt hi
    rw [List.getElem?_append_right hge] at he
    right
    cases hd : i - l.length with
    | zero =>
      rw [hd] at he
      have : e = x := by simpa using he.symm
      exact ⟨by omega, this⟩
    | succ m =>
      rw [hd] at he
      simp at he

theorem getElem?_append_of_left (l l₂ : List StepEntry) (i : Nat) (e : StepEntry)
    (he : l[i]? = some e) : (l ++ l₂)[i]? = some e := by
  have hi : i < l.length := (List.getElem?_eq_some.mp he).1
  rw [List.getElem?_append_left hi]
  exact he

theorem inv_plan (c : List String) (s : ProgressState) (st : String) (t : Int)
    (h : ProgressInv c s) : ProgressInv c (planStep s st t) := by
  obtain ⟨h1, h2, h3, h4⟩ := h
  have hres : resolvedStatus "planned" = false := by decide
  refine ⟨?_, ?_, ?_, h4⟩
  · intro k
    show (s.steps ++ [StepEntry.mk st "planned" (some t) none none none none]).countP
        (stepPred k) = _
    rw [List.countP_append, ← h1 k]
    simp [matchCount, stepPred, hres]
  · intro i e he hrun
    rcases getElem?_append_single _ _ _ _ he with hl | ⟨_, rfl⟩
    · exact h2 i e hl hrun
    · exact absurd (show ("planned" : String) = "running" from hrun) (by decide)
  · intro k hk
    obtain ⟨i, e, he, hst, hrun⟩ := h3 k hk
    exact ⟨i, e, getElem?_append_of_left _ _ _ _ he, hst, hrun⟩

theorem activeKeys_assocSet (l : List (String × Int)) (k : String) (v : Int) :
    (assocSet l k v).map Prod.fst = l.map Prod.fst
    ∨ (assocSet l k v).map Prod.fst = l.map Prod.fst ++ [k] := by
  unfold assocSet
  by_cases ha : l.any (fun pr => pr.1 == k)
  · rw [if_pos ha]
    left
    rw [List.map_map]
    apply List.map_congr_left
    intro pr _
    by_cases hpk : pr.1 == k
    · have : pr.1 = k := eq_of_beq hpk
      simp [hpk, this]
    · have hne : pr.1 ≠ k := fun hh => hpk (by simp [hh])
      simp [hpk, hne]
  · rw [if_neg ha]
    right
    simp

theorem inv_start (c : List String) (s : ProgressState) (st : String) (t : Int)
    (h : ProgressInv c s) (hnew : st ∉ c) : ProgressInv (c ++ [st]) (startStep s st t) := by
  obtain ⟨h1, h2, h3, h4⟩ := h
  have hresr : resolvedStatus "running" = true := by decide
  have hkeys : activeKeys (startStep s st t)
      = activeKeys s ∨ activeKeys (startStep s st t) = activeKeys s ++ [st] := by
    exact activeKeys_assocSet s.activeStarts st t
  have hnoact : st ∉ activeKeys s := by
    intro hmem
    obtain ⟨i, e, he, hst, hrun⟩ := h3 st hmem
    have := h1 st
    rw [if_neg hnew] at this
    have hpe : stepPred st e = true := by
      simp [stepPred, hst, hrun, hresr]
    have hmeme : e ∈ s.steps := by
      rcases List.getElem?_eq_some.mp he with ⟨hj, hget⟩
      exact hget ▸ List.getElem_mem hj
    have hpos : 0 < s.steps.countP (stepPred st) :=
      List.countP_pos.mpr ⟨e, hmeme, hpe⟩
    rw [show s.steps.countP (stepPred st) = matchCount s.steps st from rfl, this] at hpos
    omega
  have hstin : st ∈ activeKeys (startStep s st t) := by
    show st ∈ (assocSet s.activeStarts st t).map Prod.fst
    unfold assocSet
    by_cases ha : s.activeStarts.any (fun pr => pr.1 == st)
    · rw [if_pos ha]
      rcases List.any_eq_true.mp ha with ⟨pr, hpr, hprk⟩
      refine List.mem_map.mpr ⟨(st, t), ?_, rfl⟩
      refine List.mem_map.mpr ⟨pr, hpr, ?_⟩
      rw [if_pos hprk]
    · rw [if_neg ha]
      simp
  refine ⟨?_, ?_, ?_, ?_⟩
  · intro k
    show (s.steps ++ [StepEntry.mk st "running" none (some t) none none none]).countP
        (stepPred k) = _
    rw [List.countP_append]
    by_cases hke : st = k
    · subst hke
      have : stepPred st (StepEntry.mk st "running" none (some t) none none none) = true := by
        simp [stepPred, hresr]
      rw [show s.steps.countP (stepPred st) = matchCount s.steps st from rfl, h1 st,
        if_neg hnew]
      simp [this]
    · have : stepPred k (StepEntry.mk st "running" none (some t) none none none) = false := by
        simp only [stepPred, hresr, Bool.and_true]
        exact beq_eq_false_iff_ne.mpr hke
      rw [show s.steps.countP (stepPred k) = matchCount s.steps k from rfl, h1 k]
      have hkc : (k ∈ c ++ [st]) ↔ k ∈ c := by
        simp [List.mem_append]
        intro hks
        exact absurd hks.symm hke
      by_cases hkin : k ∈ c
      · rw [if_pos hkin, if_pos (hkc.mpr hkin)]
        simp [this]
      · rw [if_neg hkin, if_neg (fun hx => hkin (hkc.mp hx))]
        simp [this]
  · intro i e he hrun
    rcases getElem?_append_single _ _ _ _ he with hl | ⟨_, rfl⟩
    · have := h2 i e hl hrun
      rcases hkeys with hk | hk
      · rw [hk]; exact this
      · rw [hk]; exact List.mem_append_left _ this
    · exact hstin
  · intro k hk
    by_cases hke : k = st
    · subst hke
      refine ⟨s.steps.length, StepEntry.mk k "running" none (some t) none none none, ?_, rfl, rfl⟩
      show (s.steps ++ [_])[s.steps.length]? = _
      exact List.getElem?_concat_length _ _
    · have hkin : k ∈ activeKeys s := by
        rcases hkeys with hh | hh
        · rw [hh] at hk; exact hk
        · rw [hh] at hk
          rcases List.mem_append.mp hk with h' | h'
          · exact h'
          · exact absurd (List.mem_singleton.mp h') hke
      obtain ⟨i, e, he, hst, hrun⟩ := h3 k hkin
      exact ⟨i, e, getElem?_append_of_left _ _ _ _ he, hst, hrun⟩
  · rcases hkeys with hk | hk
    · rw [hk]; exact h4
    · rw [hk]
      simp [List.nodup_append, h4, hnoact]

theorem two_matches (p : StepEntry → Bool) :
    ∀ (l : List StepEntry) (i j : Nat) (e e' : StepEntry), i < j →
      l[i]? = some e → l[j]? = some e' → p e = true → p e' = true → 2 ≤ l.countP p := by
  intro l
  induction l with
  | nil => intro i j e e' _ he; rw [List.getElem?_nil] at he; cases he
  | cons a es ih =>
    intro i j e e' hij he he' hpe hpe'
    cases j with
    | zero => omega
    | succ j' =>
      have he'' : es[j']? = some e' := by simpa using he'
      have hmem' : e' ∈ es := by
        rcases List.getElem?_eq_some.mp he'' with ⟨hj, hget⟩
        exact hget ▸ List.getElem_mem hj
      cases i with
      | zero =>
        have hea : a = e := by simpa using he
        have h1 : 1 ≤ es.countP p := by
          have := List.countP_pos.mpr ⟨e', hmem', hpe'⟩
          omega
        rw [List.countP_cons, hea, if_pos hpe]
        omega
      | succ i' =>
        have hei : es[i']? = some e := by simpa using he
        have h2 := ih i' j' e e' (by omega) hei he'' hpe hpe'
        rw [List.countP_cons]
        omega

/-- Any distinct pair of matching indices contradicts `matchCount ≤ 1`. -/
theorem not_two_matches (p : StepEntry → Bool) (l : List StepEntry) (i j : Nat)
    (e e' : StepEntry) (hij : i ≠ j) (he : l[i]? = some e) (he' : l[j]? = some e')
    (hpe : p e = true) (hpe' : p e' = true) (hcount : l.countP p ≤ 1) : False := by
  rcases Nat.lt_or_ge i j with h | h
  · have := two_matches p l i j e e' h he he' hpe hpe'
    omega
  · have hj : j < i := by omega
    have := two_matches p l j i e' e hj he' he hpe' hpe
    omega

theorem mem_filterKeys_of_ne (l : List (String × Int)) (st x : String)
    (hx : x ∈ l.map Prod.fst) (hne : x ≠ st) :
    x ∈ (l.filter (fun pr => pr.1 != st)).map Prod.fst := by
  rcases List.mem_map.mp hx with ⟨pr, hpr, rfl⟩
  refine List.mem_map.mpr ⟨pr, List.mem_filter.mpr ⟨hpr, ?_⟩, rfl⟩
  simpa using hne

theorem and_right_eq_true {a b : Bool} (h : (a && b) = true) : b = true := by
  cases a <;> cases b <;> simp_all

theorem and_left_eq_true {a b : Bool} (h : (a && b) = true) : a = true := by
  cases a <;> cases b <;> simp_all

theorem inv_complete (c : List String) (s : ProgressState) (st status : String)
    (msg : Option String) (now : Int) (s₂ : ProgressState)
    (hres : resolvedStatus status = true) (hnr : status ≠ "running")
    (h : ProgressInv c s) (hc : completeStep s st status msg now = .ok s₂) :
    ProgressInv c s₂ := by
  obtain ⟨h1, h2, h3, h4⟩ := h
  unfold completeStep at hc
  by_cases hg : (s.steps.any (fun e => e.step == st && resolvedStatus e.status)) = true
  case neg => rw [if_neg hg] at hc; cases hc
  rw [if_pos hg] at hc
  have hs₂ := (Except.ok.injEq _ _).mp hc
  subst hs₂
  have hcount : s.steps.countP (fun e => e.step == st && resolvedStatus e.status) ≤ 1 := by
    have := h1 st
    unfold matchCount stepPred at this
    rw [this]
    by_cases hin : st ∈ c
    · rw [if_pos hin]
    · rw [if_neg hin]; omega
  have hfpres : ∀ e : StepEntry, (e.step == st && resolvedStatus e.status) = true →
      ∀ k, stepPred k (completeEntry status now
          (assocPop s.activeStarts st).1 msg e) = stepPred k e := by
    intro e hpe k
    have hre : resolvedStatus e.status = true := and_right_eq_true hpe
    unfold stepPred completeEntry
    rw [hres, hre]
  refine ⟨?_, ?_, ?_, ?_⟩
  · intro k
    show (updateLastMatching _ _ s.steps).countP (stepPred k) = _
    rw [updateLastMatching_countP _ _ _ (fun e hpe => hfpres e hpe k), ← h1 k]
    rfl
  · intro i e he hrun
    have heu : (updateLastMatching (fun x => x.step == st && resolvedStatus x.status)
        (completeEntry status now (assocPop s.activeStarts st).1 msg) s.steps)[i]?
        = some e := he
    rcases updateLastMatching_getElem?
        (fun x => x.step == st && resolvedStatus x.status)
        (completeEntry status now (assocPop s.activeStarts st).1 msg) s.steps i with
      heq | ⟨e₀, he₀, hpe₀, hres₀⟩
    · have he' : s.steps[i]? = some e := by rw [← heq]; exact heu
      have hmem := h2 i e he' hrun
      show e.step ∈ (s.activeStarts.filter (fun pr => pr.1 != st)).map Prod.fst
      refine mem_filterKeys_of_ne _ _ _ hmem ?_
      intro hest
      have hpe : (fun (x : StepEntry) => x.step == st && resolvedStatus x.status) e = true := by
        simp [hest, hrun, resolvedStatus]
      have huniq := updateLastMatching_getElem?_unique
        (fun x => x.step == st && resolvedStatus x.status)
        (completeEntry status now (assocPop s.activeStarts st).1 msg) s.steps i e he' hpe hcount
      rw [heu] at huniq
      have hee := (Option.some.injEq _ _).mp huniq
      have hst2 : e.status = status := by rw [hee]; rfl
      rw [hst2] at hrun
      exact hnr hrun
    · rw [heu] at hres₀
      have hee := (Option.some.injEq _ _).mp hres₀
      have hst2 : e.status = status := by rw [hee]; rfl
      rw [hst2] at hrun
      exact absurd hrun hnr
  · intro k hk
    show ∃ (i : Nat) (e : StepEntry),
      (updateLastMatching _ _ s.steps)[i]? = some e ∧ e.step = k ∧ e.status = "running"
    have hkmem : k ∈ activeKeys s ∧ k ≠ st := by
      rcases List.mem_map.mp hk with ⟨pr, hpr, rfl⟩
      rcases List.mem_filter.mp hpr with ⟨hmem, hne⟩
      exact ⟨List.mem_map_of_mem Prod.fst hmem, by simpa using hne⟩
    obtain ⟨i, e, he, hst, hrun⟩ := h3 k hkmem.1
    have hpe : (fun (x : StepEntry) => x.step == st && resolvedStatus x.status) e = false := by
      have : (e.step == st) = false := beq_eq_false_iff_ne.mpr (hst ▸ hkmem.2)
      simp [this]
    exact ⟨i, e, updateLastMatching_getElem?_of_not _ _ s.steps i e he hpe, hst, hrun⟩
  · show ((s.activeStarts.filter (fun pr => pr.1 != st)).map Prod.fst).Nodup
    have hsub : (s.activeStarts.filter (fun pr => pr.1 != st)).Sublist s.activeStarts :=
      List.filter_sublist _
    exact (hsub.map Prod.fst).nodup h4

theorem failPendingEntry_pred (tf started : Int) (msg : Option String)
    (e : StepEntry) (k : String) :
    stepPred k (failPendingEntry tf started msg e) = (e.step == k) := by
  unfold stepPred failPendingEntry
  rw [show resolvedStatus "failed" = true from by decide]
  simp

/-- What `finish`'s clean-up loop does, entry by entry: every running
entry whose step is pending turns into a `"failed"` entry stamped with
the run finish time; every other entry is untouched; counts and length
are preserved. -/
theorem failPending_spec (tf : Int) (msg : Option String) :
    ∀ (pending : List (String × Int)) (steps steps' : List StepEntry),
      failPending tf msg steps pending = .ok steps' →
      (∀ k, matchCount steps k ≤ 1) →
      (∀ k, k ∈ pending.map Prod.fst →
          ∃ (i : Nat) (e : StepEntry), steps[i]? = some e ∧ e.step = k ∧ e.status = "running") →
      (pending.map Prod.fst).Nodup →
      (∀ k, matchCount steps' k = matchCount steps k)
      ∧ steps'.length = steps.length
      ∧ (∀ (i : Nat) (e : StepEntry), steps[i]? = some e →
          ((e.status = "running" ∧ e.step ∈ pending.map Prod.fst →
              ∃ e', steps'[i]? = some e' ∧ e'.status = "failed" ∧ e'.finishedAt = some tf)
            ∧ (¬(e.status = "running" ∧ e.step ∈ pending.map Prod.fst) →
              steps'[i]? = some e))) := by
  intro pending
  induction pending with
  | nil =>
    intro steps steps' hfp hcnt hrun hnd
    have hss : steps' = steps := by
      unfold failPending at hfp
      exact ((Except.ok.injEq _ _).mp hfp).symm
    subst hss
    refine ⟨fun k => rfl, rfl, ?_⟩
    intro i e he
    refine ⟨?_, fun _ => he⟩
    rintro ⟨_, hmem⟩
    simp at hmem
  | cons kt rest ih =>
    intro steps steps' hfp hcnt hrun hnd
    obtain ⟨k, t⟩ := kt
    unfold failPending at hfp
    by_cases hg : (steps.any (fun e => e.step == k && resolvedStatus e.status)) = true
    case neg => rw [if_neg hg] at hfp; cases hfp
    rw [if_pos hg] at hfp
    have hkeys : ((k, t) :: rest).map Prod.fst = k :: rest.map Prod.fst := rfl
    rw [hkeys] at hnd hrun
    obtain ⟨hkn, hndr⟩ := List.nodup_cons.mp hnd
    have hcntk : steps.countP
        (fun e => e.step == k && resolvedStatus e.status) ≤ 1 := hcnt k
    have hcntpres : ∀ k', matchCount
        (updateLastMatching (fun e => e.step == k && resolvedStatus e.status)
          (failPendingEntry tf t msg) steps) k' = matchCount steps k' := by
      intro k'
      exact updateLastMatching_countP _ (stepPred k') _ (fun e hpe => by
        rw [failPendingEntry_pred]
        have hre := and_right_eq_true hpe
        unfold stepPred
        rw [hre, Bool.and_true]) steps
    have hrun1 : ∀ k', k' ∈ rest.map Prod.fst →
        ∃ (i : Nat) (e : StepEntry),
          (updateLastMatching (fun e => e.step == k && resolvedStatus e.status)
            (failPendingEntry tf t msg) steps)[i]? = some e
          ∧ e.step = k' ∧ e.status = "running" := by
      intro k' hk'
      obtain ⟨i, e, he, hst, hr⟩ := hrun k' (List.mem_cons_of_mem _ hk')
      have hne : k' ≠ k := fun heq => hkn (heq ▸ hk')
      have hpe : (fun (x : StepEntry) => x.step == k && resolvedStatus x.status) e = false := by
        have : (e.step == k) = false := beq_eq_false_iff_ne.mpr (by rw [hst]; exact hne)
        simp [this]
      exact ⟨i, e, updateLastMatching_getElem?_of_not
        (fun x => x.step == k && resolvedStatus x.status)
        (failPendingEntry tf t msg) steps i e he hpe, hst, hr⟩
    obtain ⟨ihc, ihlen, ihpt⟩ := ih _ steps' hfp
      (fun k' => by rw [hcntpres k']; exact hcnt k') hrun1 hndr
    refine ⟨fun k' => (ihc k').trans (hcntpres k'),
      ihlen.trans (updateLastMatching_length _ _ steps), ?_⟩
    intro i e he
    rw [hkeys]
    constructor
    · rintro ⟨hrune, hmem⟩
      rcases List.mem_cons.mp hmem with hek | hmr
      · -- the failing step itself
        have hpe : (fun (x : StepEntry) => x.step == k && resolvedStatus x.status) e = true := by
          simp [hek, hrune, resolvedStatus]
        have h1 := updateLastMatching_getElem?_unique _
          (failPendingEntry tf t msg) steps i e he hpe hcntk
        have h2 := (ihpt i (failPendingEntry tf t msg e) h1).2 (by
          rintro ⟨hr', _⟩
          exact absurd (show ("failed" : String) = "running" from hr') (by decide))
        exact ⟨failPendingEntry tf t msg e, h2, rfl, rfl⟩
      · -- a later pending step
        have hne : e.step ≠ k := fun heq => hkn (heq ▸ hmr)
        have hpe : (fun (x : StepEntry) => x.step == k && resolvedStatus x.status) e = false := by
          have : (e.step == k) = false := beq_eq_false_iff_ne.mpr hne
          simp [this]
        have h1 := updateLastMatching_getElem?_of_not
          (fun x => x.step == k && resolvedStatus x.status)
          (failPendingEntry tf t msg) steps i e he hpe
        exact (ihpt i e h1).1 ⟨hrune, hmr⟩
    · intro hn
      have hpe : (fun (x : StepEntry) => x.step == k && resolvedStatus x.status) e = false := by
        by_contra hpc
        have hpe' : (fun (x : StepEntry) => x.step == k && resolvedStatus x.status) e = true := by
          cases hx : (fun (x : StepEntry) => x.step == k && resolvedStatus x.status) e
          · exact absurd hx hpc
          · rfl
        have hpe'' : (e.step == k && resolvedStatus e.status) = true := hpe'
        have hek : e.step = k := eq_of_beq (and_left_eq_true hpe'')
        by_cases hre : e.status = "running"
        · exact hn ⟨hre, by rw [hek]; exact List.mem_cons_self _ _⟩
        · obtain ⟨i₀, e₀, he₀, hst₀, hr₀⟩ := hrun k (List.mem_cons_self _ _)
          have hpe₀ : (fun (x : StepEntry) =>
              x.step == k && resolvedStatus x.status) e₀ = true := by
            simp [hst₀, hr₀, resolvedStatus]
          have hine : i ≠ i₀ := by
            intro heq
            rw [heq, he₀] at he
            have : e = e₀ := ((Option.some.injEq _ _).mp he).symm
            rw [this, hr₀] at hre
            exact hre rfl
          exact not_two_matches _ steps i i₀ e e₀ hine he he₀ hpe' hpe₀ hcntk
      have h1 := updateLastMatching_getElem?_of_not
        (fun x => x.step == k && resolvedStatus x.status)
        (failPendingEntry tf t msg) steps i e he hpe
      exact (ihpt i e h1).2 (by
        rintro ⟨hr', hm'⟩
        exact hn ⟨hr', List.mem_cons_of_mem _ hm'⟩)

theorem inv_finish (c : List String) (s : ProgressState) (status : String)
    (msg : Option String) (now : Int) (s₂ : ProgressState)
    (h : ProgressInv c s) (hf : finishRun s status msg now = .ok s₂) :
    ProgressInv c s₂ := by
  obtain ⟨h1, h2, h3, h4⟩ := h
  unfold finishRun at hf
  cases hfp : failPending now msg s.steps s.activeStarts.reverse with
  | error e => rw [hfp] at hf; cases hf
  | ok steps' =>
    rw [hfp] at hf
    have hs₂ := (Except.ok.injEq _ _).mp hf
    subst hs₂
    have hkeysrev : (s.activeStarts.reverse.map Prod.fst) = (activeKeys s).reverse := by
      unfold activeKeys
      rw [List.map_reverse]
    obtain ⟨fpc, fplen, fppt⟩ := failPending_spec now msg s.activeStarts.reverse s.steps steps'
      hfp
      (fun k => by
        rw [h1 k]
        by_cases hin : k ∈ c
        · rw [if_pos hin]
        · rw [if_neg hin]; omega)
      (fun k hk => h3 k (by
        rw [hkeysrev] at hk
        exact List.mem_reverse.mp hk))
      (by rw [hkeysrev]; exact List.nodup_reverse.mpr h4)
    refine ⟨?_, ?_, ?_, ?_⟩
    · intro k
      show matchCount steps' k = _
      rw [fpc k, h1 k]
    · intro i e' he' hrun'
      exfalso
      have hi : i < steps'.length := (List.getElem?_eq_some.mp he').1
      have hi2 : i < s.steps.length := by rw [← fplen]; exact hi
      have he : s.steps[i]? = some s.steps[i] := List.getElem?_eq_getElem hi2
      obtain ⟨hA, hB⟩ := fppt i s.steps[i] he
      by_cases hcase : s.steps[i].status = "running"
          ∧ s.steps[i].step ∈ s.activeStarts.reverse.map Prod.fst
      · obtain ⟨e'', he'', hst'', _⟩ := hA hcase
        rw [he'] at he''
        have hee : e' = e'' := (Option.some.injEq _ _).mp he''
        rw [hee, hst''] at hrun'
        exact absurd hrun' (by decide)
      · have hsame := hB hcase
        rw [he'] at hsame
        have heq : e' = s.steps[i] := (Option.some.injEq _ _).mp hsame
        apply hcase
        refine ⟨by rw [← heq]; exact hrun', ?_⟩
        rw [hkeysrev]
        refine List.mem_reverse.mpr ?_
        exact h2 i _ he (by rw [← heq]; exact hrun')
    · intro k hk
      simp [activeKeys] at hk
    · show (([] : List (String × Int)).map Prod.fst).Nodup
      simp

theorem applyOps_inv : ∀ (ops : List PLOp) (c : List String) (s : ProgressState),
    ProgressInv c s → (c ++ startsOf ops).Nodup →
    ∀ s', applyOps s ops = .ok s' → ProgressInv (c ++ startsOf ops) s' := by
  intro ops
  induction ops with
  | nil =>
    intro c s h _ s' hs'
    have heq : s' = s := ((Except.ok.injEq _ _).mp hs').symm
    subst heq
    simpa [startsOf] using h
  | cons op rest ih =>
    intro c s h hnd s' hs'
    unfold applyOps at hs'
    cases hop : applyOp s op with
    | error e => rw [hop] at hs'; cases hs'
    | ok s₁ =>
      rw [hop] at hs'
      cases op with
      | plan st t =>
        have h₁ : s₁ = planStep s st t := by
          have : Except.ok (planStep s st t) = Except.ok s₁ := hop
          exact ((Except.ok.injEq _ _).mp this).symm
        subst h₁
        exact ih c _ (inv_plan c s st t h) hnd s' hs'
      | start st t =>
        have hkeys : c ++ startsOf (PLOp.start st t :: rest)
            = (c ++ [st]) ++ startsOf rest := by
          show c ++ (st :: startsOf rest) = _
          simp
        rw [hkeys] at hnd ⊢
        have hstc : st ∉ c := by
          have hnd' : (c ++ st :: startsOf rest).Nodup := by simpa using hnd
          rcases List.nodup_append.mp hnd' with ⟨_, _, hdisj⟩
          intro hmem
          exact hdisj hmem (List.mem_cons_self _ _)
        have h₁ : s₁ = startStep s st t := by
          have : Except.ok (startStep s st t) = Except.ok s₁ := hop
          exact ((Except.ok.injEq _ _).mp this).symm
        subst h₁
        exact ih (c ++ [st]) _ (inv_start c s st t h hstc) hnd s' hs'
      | complete st m t =>
        have hc : completeStep s st "completed" m t = .ok s₁ := hop
        exact ih c _ (inv_complete c s st "completed" m t s₁ (by decide) (by decide) h hc)
          hnd s' hs'
      | fail st m t =>
        have hc : completeStep s st "failed" m t = .ok s₁ := hop
        exact ih c _ (inv_complete c s st "failed" m t s₁ (by decide) (by decide) h hc)
          hnd s' hs'
      | finishOp stf m t =>
        have hc : finishRun s stf m t = .ok s₁ := hop
        exact ih c _ (inv_finish c s stf m t s₁ h hc) hnd s' hs'

/-- Claim C6: in any sequence of `ProgressLog` operations starting each
step at most once, `finish(status, message)` leaves no StepRecord with
status `"running"`: every previously running record becomes `"failed"`
with the run's finish time as its finished timestamp, all other records
are untouched, and the overall status and finish time are set on the
state that the final durable write persists. -/
theorem finish_clears_running (sess : String) (dr : Bool) (ord : List String) (t0 : Int)
    (ops : List PLOp) (hnodup : (startsOf ops).Nodup)
    (s : ProgressState) (hs : applyOps (ProgressLog.init sess dr ord t0) ops = .ok s)
    (status : String) (msg : Option String) (tf : Int) (s' : ProgressState)
    (hf : finishRun s status msg tf = .ok s') :
    "running" ∉ s'.steps.map StepEntry.status
    ∧ s'.steps.map StepEntry.status
        = s.steps.map (fun e => if e.status = "running" then "failed" else e.status)
    ∧ s'.steps.map StepEntry.finishedAt
        = s.steps.map (fun e => if e.status = "running" then some tf else e.finishedAt)
    ∧ s'.status = status
    ∧ s'.finishedAt = some tf := by
  have hinv0 : ProgressInv [] (ProgressLog.init sess dr ord t0) := by
    refine ⟨?_, ?_, ?_, ?_⟩
    · intro k
      simp [matchCount, ProgressLog.init]
    · intro i e he
      rw [show (ProgressLog.init sess dr ord t0).steps = [] from rfl] at he
      simp at he
    · intro k hk
      simp [activeKeys, ProgressLog.init] at hk
    · simp [activeKeys, ProgressLog.init]
  obtain ⟨h1, h2, h3, h4⟩ := applyOps_inv ops [] _ hinv0 (by simpa using hnodup) s hs
  unfold finishRun at hf
  cases hfp : failPending tf msg s.steps s.activeStarts.reverse with
  | error e => rw [hfp] at hf; cases hf
  | ok steps'' =>
    rw [hfp] at hf
    have hs' := (Except.ok.injEq _ _).mp hf
    subst hs'
    have hkeysrev : (s.activeStarts.reverse.map Prod.fst) = (activeKeys s).reverse := by
      unfold activeKeys
      rw [List.map_reverse]
    obtain ⟨fpc, fplen, fppt⟩ := failPending_spec tf msg s.activeStarts.reverse s.steps steps''
      hfp
      (fun k => by
        rw [h1 k]
        by_cases hin : k ∈ [] ++ startsOf ops
        · rw [if_pos hin]
        · rw [if_neg hin]; omega)
      (fun k hk => h3 k (by
        rw [hkeysrev] at hk
        exact List.mem_reverse.mp hk))
      (by rw [hkeysrev]; exact List.nodup_reverse.mpr h4)
    have hpt : ∀ (i : Nat) (hi : i < s.steps.length),
        (((s.steps.get ⟨i, hi⟩).status = "running"
            → ∃ e', steps''[i]? = some e' ∧ e'.status = "failed" ∧ e'.finishedAt = some tf)
          ∧ ((s.steps.get ⟨i, hi⟩).status ≠ "running"
            → steps''[i]? = some (s.steps.get ⟨i, hi⟩))) := by
      intro i hi
      have he : s.steps[i]? = some (s.steps.get ⟨i, hi⟩) := by
        rw [List.getElem?_eq_getElem hi, List.get_eq_getElem]
      obtain ⟨hA, hB⟩ := fppt i (s.steps.get ⟨i, hi⟩) he
      constructor
      · intro hrun
        refine hA ⟨hrun, ?_⟩
        rw [hkeysrev]
        exact List.mem_reverse.mpr (h2 i _ he hrun)
      · intro hnr
        exact hB (fun hc => hnr hc.1)
    have hstat : steps''.map StepEntry.status
        = s.steps.map (fun e => if e.status = "running" then "failed" else e.status) := by
      apply List.ext_getElem?
      intro i
      rw [List.getElem?_map, List.getElem?_map]
      by_cases hi : i < s.steps.length
      · have he : s.steps[i]? = some (s.steps.get ⟨i, hi⟩) := by
          rw [List.getElem?_eq_getElem hi, List.get_eq_getElem]
        rw [he]
        by_cases hrun : (s.steps.get ⟨i, hi⟩).status = "running"
        · obtain ⟨e', he', hst', _⟩ := (hpt i hi).1 hrun
          rw [he', Option.map_some', Option.map_some', hst', if_pos hrun]
        · rw [(hpt i hi).2 hrun, Option.map_some', Option.map_some', if_neg hrun]
      · have hnone : s.steps[i]? = none := List.getElem?_eq_none (by omega)
        have hnone' : steps''[i]? = none := List.getElem?_eq_none (by
          rw [fplen]; omega)
        rw [hnone, hnone']
        rfl
    have hfin : steps''.map StepEntry.finishedAt
        = s.steps.map (fun e => if e.status = "running" then some tf else e.finishedAt) := by
      apply List.ext_getElem?
      intro i
      rw [List.getElem?_map, List.getElem?_map]
      by_cases hi : i < s.steps.length
      · have he : s.steps[i]? = some (s.steps.get ⟨i, hi⟩) := by
          rw [List.getElem?_eq_getElem hi, List.get_eq_getElem]
        rw [he]
        by_cases hrun : (s.steps.get ⟨i, hi⟩).status = "running"
        · obtain ⟨e', he', _, hft'⟩ := (hpt i hi).1 hrun
          rw [he', Option.map_some', Option.map_some', hft', if_pos hrun]
        · rw [(hpt i hi).2 hrun, Option.map_some', Option.map_some', if_neg hrun]
      · have hnone : s.steps[i]? = none := List.getElem?_eq_none (by omega)
        have hnone' : steps''[i]? = none := List.getElem?_eq_none (by
          rw [fplen]; omega)
        rw [hnone, hnone']
        rfl
    refine ⟨?_, hstat, hfin, rfl, rfl⟩
    rw [hstat]
    intro hmem
    rcases List.mem_map.mp hmem with ⟨e, _, hif⟩
    by_cases hrun : e.status = "running"
    · rw [if_pos hrun] at hif
      exact absurd hif (by decide)
    · rw [if_neg hrun] at hif
      exact hrun hif

/-- Witness for C6: one started-but-never-completed step is force-failed
by `finish` with the run's finish time. -/
theorem finish_clears_running_witness :
    "running" ∉ (ProgressState.mk "w6" false 0 "failed" ["a"]
        [StepEntry.mk "a" "failed" none (some 1) (some 5) (some 4) (some "stop")]
        (some 5) (some "stop") none []).steps.map StepEntry.status
    ∧ (ProgressState.mk "w6" false 0 "failed" ["a"]
        [StepEntry.mk "a" "failed" none (some 1) (some 5) (some 4) (some "stop")]
        (some 5) (some "stop") none []).steps.map StepEntry.status
        = (ProgressState.mk "w6" false 0 "running" ["a"]
            [StepEntry.mk "a" "running" none (some 1) none none none]
            none none none [("a", 1)]).steps.map
            (fun e => if e.status = "running" then "failed" else e.status)
    ∧ (ProgressState.mk "w6" false 0 "failed" ["a"]
        [StepEntry.mk "a" "failed" none (some 1) (some 5) (some 4) (some "stop")]
        (some 5) (some "stop") none []).steps.map StepEntry.finishedAt
        = (ProgressState.mk "w6" false 0 "running" ["a"]
            [StepEntry.mk "a" "running" none (some 1) none none none]
            none none none [("a", 1)]).steps.map
            (fun e => if e.status = "running" then some (5 : Int) else e.finishedAt)
    ∧ (ProgressState.mk "w6" false 0 "failed" ["a"]
        [StepEntry.mk "a" "failed" none (some 1) (some 5) (some 4) (some "stop")]
        (some 5) (some "stop") none []).status = "failed"
    ∧ (ProgressState.mk "w6" false 0 "failed" ["a"]
        [StepEntry.mk "a" "failed" none (some 1) (some 5) (some 4) (some "stop")]
        (some 5) (some "stop") none []).finishedAt = some 5 :=
  finish_clears_running "w6" false ["a"] 0 [PLOp.start "a" 1] (by decide)
    (ProgressState.mk "w6" false 0 "running" ["a"]
      [StepEntry.mk "a" "running" none (some 1) none none none]
      none none none [("a", 1)])
    (by decide) "failed" (some "stop") 5
    (ProgressState.mk "w6" false 0 "failed" ["a"]
      [StepEntry.mk "a" "failed" none (some 1) (some 5) (some 4) (some "stop")]
      (some 5) (some "stop") none [])
    (by decide)

end GwasPipeline
